import Mathlib

/-!
Verification of the scratch (write-buffering) trie store and its flush
algorithm, embedded from `src/execution_engine/src/storage/trie_store/lmdb.rs`.

The durable store is LMDB-backed; it is modelled as an association list from
digests to byte strings.  The scratch cache (`Arc<Mutex<HashMap<Digest,
(bool, Trie)>>>`) is modelled as an association list from digests to
`(dirty-flag, trie)` pairs; lock acquisition always succeeds in this
sequential model (lock poisoning cannot occur without a panicking thread).
-/

/-- A digest: the content-derived identity of a trie node.  Its internal
structure (fixed-length hash bytes) is irrelevant to the store layer, which
only compares digests for equality, so it is modelled as `Nat`. -/
abbrev Digest := Nat

/-- A byte string, as stored in the durable (LMDB) store. -/
abbrev Bytes := List Nat

/-- Modelled from the spec: a `Pointer` is either a `LeafPointer(Digest)` or a
non-leaf `Pointer(Digest)` referencing a child node by its content hash
(the `Trie`/`Pointer` definitions of `storage/trie` are not under `src/`). -/
inductive Pointer where
  | leafPointer (d : Digest)
  | nodePointer (d : Digest)
deriving DecidableEq

/-- The digest a pointer references. -/
def Pointer.pointedDigest : Pointer → Digest
  | .leafPointer d => d
  | .nodePointer d => d

/-- Modelled from the spec: a trie node is a tagged union; a *Leaf* holds a raw
key and a raw value, a *Node* (branch) holds a `PointerBlock` — an array of
optional child pointers (the fixed arity of the block is not material to the
store layer, so the block is a list).  The *Extension* shape is omitted in the
excerpted core (spec §3). -/
inductive Trie where
  | leaf (key : Bytes) (value : Bytes)
  | node (pointerBlock : List (Option Pointer))
deriving DecidableEq

/-- Modelled from the spec: `children()` returns, for a Node, the digest of
every non-empty pointer slot (both leaf and non-leaf pointers), and for a
Leaf nothing (spec §4.1); the flush algorithm consumes it as an `Option`
(`if let Some(children) = trie.children()`). -/
def Trie.children : Trie → Option (List Digest)
  | .leaf _ _ => none
  | .node pb => some (pb.filterMap (fun s => s.map Pointer.pointedDigest))

/-- The list of child digests of a node (empty for a leaf). -/
def childrenList (t : Trie) : List Digest := t.children.getD []

/-! ### Canonical byte encoding

Modelled from the spec: nodes serialize to/from a canonical byte encoding
(spec §4.1); the encoding itself is defined by the node-encoding component,
which is not under `src/`, so a simple canonical length-prefixed encoding is
used.  Only its roundtrip property and the existence of undecodable byte
strings matter to the store layer. -/

/-- Canonical encoding of one pointer-block slot. -/
def encodeSlot : Option Pointer → Bytes
  | none => [0]
  | some (.leafPointer d) => [1, d]
  | some (.nodePointer d) => [2, d]

/-- Canonical encoding of a pointer block's slots. -/
def encodeSlots : List (Option Pointer) → Bytes
  | [] => []
  | s :: tl => encodeSlot s ++ encodeSlots tl

/-- Modelled from the spec: canonical serialization of a trie node. -/
def serialize : Trie → Bytes
  | .leaf k v => 0 :: k.length :: (k ++ v.length :: v)
  | .node pb => 1 :: pb.length :: encodeSlots pb

/-- Decode `n` slots from the front of a byte string. -/
def decodeSlots : Nat → Bytes → Option (List (Option Pointer) × Bytes)
  | 0, bs => some ([], bs)
  | n + 1, 0 :: rest =>
      (decodeSlots n rest).map (fun p => (none :: p.1, p.2))
  | n + 1, 1 :: d :: rest =>
      (decodeSlots n rest).map (fun p => (some (.leafPointer d) :: p.1, p.2))
  | n + 1, 2 :: d :: rest =>
      (decodeSlots n rest).map (fun p => (some (.nodePointer d) :: p.1, p.2))
  | _ + 1, _ => none

/-- Modelled from the spec: canonical deserialization of a trie node;
malformed bytes fail to decode (surfaced by the stores as a decoding
error). -/
def deserialize : Bytes → Option Trie
  | 0 :: kl :: rest =>
      if kl ≤ rest.length then
        match rest.drop kl with
        | vl :: rest2 => if vl = rest2.length then
            some (.leaf (rest.take kl) rest2) else none
        | [] => none
      else none
  | 1 :: n :: rest =>
      match decodeSlots n rest with
      | some (slots, []) => some (.node slots)
      | _ => none
  | _ => none

theorem decodeSlots_encodeSlots (pb : List (Option Pointer)) (rest : Bytes) :
    decodeSlots pb.length (encodeSlots pb ++ rest) = some (pb, rest) := by
  induction pb with
  | nil => simp [decodeSlots, encodeSlots]
  | cons s tl ih =>
      cases s with
      | none => simp [encodeSlots, encodeSlot, decodeSlots, ih]
      | some p => cases p <;>
          simp [encodeSlots, encodeSlot, decodeSlots, ih]

/-- The canonical encoding roundtrips: `hash(serialize(node))`-addressed
storage can always decode what it wrote. -/
theorem deserialize_serialize (t : Trie) : deserialize (serialize t) = some t := by
  cases t with
  | leaf k v =>
      simp only [serialize, deserialize]
      rw [if_pos (by simp)]
      rw [List.drop_left, List.take_left]
      simp
  | node pb =>
      simp only [serialize, deserialize]
      have h := decodeSlots_encodeSlots pb []
      rw [List.append_nil] at h
      rw [h]

/-! ### Association-list maps

Model of the key-addressed maps the code uses: the `HashMap` behind the
scratch cache and the LMDB database behind the durable store (byte-string
get/put keyed by raw digest bytes).  Keys are digests in both cases. -/

/-- An association-list map from digests to `β`. -/
abbrev AssocL (β : Type) := List (Digest × β)

/-- Map lookup (`HashMap::get` / LMDB read). -/
def alookup {β : Type} : AssocL β → Digest → Option β
  | [], _ => none
  | (k, v) :: tl, d => if k = d then some v else alookup tl d

/-- Map insertion, overwriting any existing entry for the key
(`HashMap::insert` / LMDB put). -/
def ainsert {β : Type} : AssocL β → Digest → β → AssocL β
  | [], d, e => [(d, e)]
  | (k, v) :: tl, d, e => if k = d then (d, e) :: tl else (k, v) :: ainsert tl d e

/-- Map removal, returning the removed value (`HashMap::remove`). -/
def aremove {β : Type} : AssocL β → Digest → Option β × AssocL β
  | [], _ => (none, [])
  | (k, v) :: tl, d =>
      if k = d then (some v, tl)
      else
        let r := aremove tl d
        (r.1, (k, v) :: r.2)

/-- The keys of a map. -/
def akeys {β : Type} (l : AssocL β) : List Digest := l.map Prod.fst

theorem alookup_ainsert_self {β : Type} (l : AssocL β) (d : Digest) (e : β) :
    alookup (ainsert l d e) d = some e := by
  induction l with
  | nil => simp [ainsert, alookup]
  | cons p tl ih =>
      by_cases h : p.1 = d <;> simp [ainsert, alookup, h, ih]

theorem alookup_ainsert_ne {β : Type} (l : AssocL β) {d d2 : Digest} (e : β)
    (h : d2 ≠ d) : alookup (ainsert l d e) d2 = alookup l d2 := by
  induction l with
  | nil => simp [ainsert, alookup, Ne.symm h]
  | cons p tl ih =>
      by_cases hp : p.1 = d
      · simp [ainsert, alookup, hp, Ne.symm h, h]
      · by_cases hp2 : p.1 = d2 <;> simp [ainsert, alookup, hp, hp2, ih, h]

theorem aremove_fst {β : Type} (l : AssocL β) (d : Digest) :
    (aremove l d).1 = alookup l d := by
  induction l with
  | nil => simp [aremove, alookup]
  | cons p tl ih =>
      by_cases h : p.1 = d <;> simp [aremove, alookup, h, ih]

theorem aremove_of_alookup_none {β : Type} (l : AssocL β) (d : Digest)
    (h : alookup l d = none) : aremove l d = (none, l) := by
  induction l with
  | nil => simp [aremove]
  | cons p tl ih =>
      by_cases hp : p.1 = d
      · simp [alookup, hp] at h
      · simp [alookup, hp] at h
        simp [aremove, hp, ih h]

theorem aremove_split {β : Type} (l : AssocL β) (d : Digest) (e : β)
    (h : alookup l d = some e) :
    ∃ pre suf, l = pre ++ (d, e) :: suf ∧ (∀ k ∈ akeys pre, k ≠ d) ∧
      aremove l d = (some e, pre ++ suf) := by
  induction l with
  | nil => simp [alookup] at h
  | cons p tl ih =>
      by_cases hp : p.1 = d
      · refine ⟨[], tl, ?_, by simp [akeys], ?_⟩
        · simp [alookup, hp] at h
          simp [← h, ← hp]
        · simp [alookup, hp] at h
          simp [aremove, hp, h]
      · simp [alookup, hp] at h
        obtain ⟨pre, suf, hl, hpre, hrem⟩ := ih h
        refine ⟨p :: pre, suf, by simp [hl], ?_, ?_⟩
        · intro k hk
          simp [akeys] at hk
          rcases hk with hk | hk
          · simpa [hk] using hp
          · exact hpre k (by simpa [akeys] using hk)
        · simp [aremove, hp, hrem]

theorem aremove_lookup_ne {β : Type} (l : AssocL β) {d d2 : Digest}
    (h : d2 ≠ d) : alookup (aremove l d).2 d2 = alookup l d2 := by
  induction l with
  | nil => simp [aremove]
  | cons p tl ih =>
      by_cases hp : p.1 = d
      · simp [aremove, alookup, hp, Ne.symm h, h]
      · by_cases hp2 : p.1 = d2 <;> simp [aremove, alookup, hp, hp2, ih, h]

theorem aremove_lookup_isSome {β : Type} (l : AssocL β) {d d2 : Digest}
    (h : alookup (aremove l d).2 d2 ≠ none) : alookup l d2 ≠ none := by
  by_cases hd : d2 = d
  · subst hd
    cases he : alookup l d2 with
    | some e => simp [he]
    | none => rw [aremove_of_alookup_none l d2 he] at h; simp [he] at h
  · rw [aremove_lookup_ne l hd] at h
    exact h

theorem aremove_some_length {β : Type} (l : AssocL β) (d : Digest) (e : β)
    (h : (aremove l d).1 = some e) : (aremove l d).2.length < l.length := by
  induction l with
  | nil => simp [aremove] at h
  | cons p tl ih =>
      by_cases hp : p.1 = d
      · simp [aremove, hp]
      · simp only [aremove, hp, if_false] at h ⊢
        have := ih h
        simpa using Nat.succ_lt_succ this

theorem aremove_sublist {β : Type} (l : AssocL β) (d : Digest) :
    (aremove l d).2.Sublist l := by
  induction l with
  | nil => simp [aremove]
  | cons p tl ih =>
      by_cases hp : p.1 = d
      · simp only [aremove, hp, if_pos]
        exact List.sublist_cons_self p tl
      · simp only [aremove, hp, if_neg, not_false_iff]
        exact List.Sublist.cons₂ p ih

theorem akeys_nodup_aremove {β : Type} (l : AssocL β) (d : Digest)
    (h : (akeys l).Nodup) : (akeys (aremove l d).2).Nodup :=
  h.sublist ((aremove_sublist l d).map Prod.fst)

theorem akeys_ainsert_mem {β : Type} (l : AssocL β) (d : Digest) (e : β)
    (hd : d ∈ akeys l) : akeys (ainsert l d e) = akeys l := by
  induction l with
  | nil => simp [akeys] at hd
  | cons p tl ih =>
      by_cases hp : p.1 = d
      · simp [ainsert, akeys, hp]
      · have hd2 : d ∈ akeys tl := by
          simp [akeys] at hd
          rcases hd with hd | hd
          · exact absurd hd.symm hp
          · simpa [akeys] using hd
        rw [show ainsert (p :: tl) d e = p :: ainsert tl d e by simp [ainsert, hp]]
        have := ih hd2
        simp only [akeys, List.map] at this ⊢
        rw [this]

theorem akeys_ainsert_not_mem {β : Type} (l : AssocL β) (d : Digest) (e : β)
    (hd : d ∉ akeys l) : akeys (ainsert l d e) = akeys l ++ [d] := by
  induction l with
  | nil => simp [ainsert, akeys]
  | cons p tl ih =>
      have hp : p.1 ≠ d := by
        intro hp
        exact hd (by simp [akeys, hp])
      have hd2 : d ∉ akeys tl := by
        intro hmem
        exact hd (by simp [akeys]; right; simpa [akeys] using hmem)
      rw [show ainsert (p :: tl) d e = p :: ainsert tl d e by simp [ainsert, hp]]
      have := ih hd2
      simp only [akeys, List.map] at this ⊢
      rw [this]
      simp

theorem akeys_nodup_ainsert {β : Type} (l : AssocL β) (d : Digest) (e : β)
    (h : (akeys l).Nodup) : (akeys (ainsert l d e)).Nodup := by
  by_cases hd : d ∈ akeys l
  · rw [akeys_ainsert_mem l d e hd]; exact h
  · rw [akeys_ainsert_not_mem l d e hd]
    rw [List.nodup_append]
    exact ⟨h, List.nodup_singleton d, by simpa [List.disjoint_singleton] using hd⟩

theorem alookup_eq_none_iff {β : Type} (l : AssocL β) (d : Digest) :
    alookup l d = none ↔ d ∉ akeys l := by
  induction l with
  | nil => simp [alookup, akeys]
  | cons p tl ih =>
      by_cases hp : p.1 = d
      · simp [alookup, akeys, hp]
      · simp [alookup, akeys, hp, ih, Ne.symm hp]

theorem alookup_isSome_of_mem_keys {β : Type} (l : AssocL β) (d : Digest)
    (h : d ∈ akeys l) : ∃ e, alookup l d = some e := by
  cases he : alookup l d with
  | some e => exact ⟨e, rfl⟩
  | none => exact absurd h ((alookup_eq_none_iff l d).mp he)

theorem mem_of_alookup_eq_some {β : Type} (l : AssocL β) (d : Digest) (e : β)
    (h : alookup l d = some e) : (d, e) ∈ l := by
  induction l with
  | nil => simp [alookup] at h
  | cons p tl ih =>
      by_cases hp : p.1 = d
      · have hpe : p = (d, e) := by
          simp [alookup, hp] at h
          cases p with
          | mk a b =>
              simp at hp h
              simp [hp, h]
        rw [hpe]
        exact List.mem_cons_self _ _
      · simp [alookup, hp] at h
        exact List.mem_cons_of_mem _ (ih h)

theorem alookup_eq_some_of_mem_nodup {β : Type} (l : AssocL β) (d : Digest)
    (e : β) (hnd : (akeys l).Nodup) (h : (d, e) ∈ l) : alookup l d = some e := by
  induction l with
  | nil => simp at h
  | cons p tl ih =>
      simp [akeys] at hnd
      rcases List.mem_cons.mp h with h | h
      · simp [← h, alookup]
      · by_cases hp : p.1 = d
        · exact absurd (hp ▸ h) (hnd.1 e)
        · simp [alookup, hp]
          exact ih hnd.2 h

theorem aremove_lookup_self_nodup {β : Type} (l : AssocL β) (d : Digest)
    (hnd : (akeys l).Nodup) : alookup (aremove l d).2 d = none := by
  induction l with
  | nil => simp [aremove, alookup]
  | cons p tl ih =>
      simp [akeys] at hnd
      by_cases hp : p.1 = d
      · simp only [aremove, hp, if_pos]
        rw [alookup_eq_none_iff]
        intro hmem
        simp [akeys] at hmem
        obtain ⟨b, hb⟩ := hmem
        exact hnd.1 b (by simpa [hp] using hb)
      · simp only [aremove, hp, if_neg, not_false_iff]
        simp [alookup, hp]
        exact ih hnd.2

/-! ### Error model

From `storage/error` and `storage/global_state::CommitError` as used by
`lmdb.rs`: backend/lock errors cannot arise in this sequential, pure model
(no I/O failures, no panicking lock holders), so the reachable errors are the
decoding error and the validation error. -/

/-- The commit-time validation error, carrying the offending digest
(`CommitError::TrieNotFoundDuringCacheValidate`). -/
inductive CommitError where
  | TrieNotFoundDuringCacheValidate (d : Digest)
deriving DecidableEq

/-- Store-layer errors (`error::Error`): lock poisoning, decoding failure
(`bytesrepr`), and commit validation errors. -/
inductive Error where
  | Poison
  | BytesRepr
  | CommitError (e : CommitError)
deriving DecidableEq

/-- The scratch cache: digest → (dirty flag, trie).  Models
`HashMap<Digest, (bool, Trie<Key, StoredValue>)>` behind the mutex. -/
abbrev Cache := AssocL (Bool × Trie)

/-- The durable LMDB store content: digest → serialized bytes. -/
abbrev Db := AssocL Bytes

/-- The `validated_tries` accumulator of the flush algorithm. -/
abbrev Validated := AssocL Trie

/-- Modelled from the spec: `LmdbTrieStore` `put` — a direct engine write of
the node's canonical encoding keyed by the digest (spec §4.3; the generic
`Store` trait body is not under `src/`). -/
def LmdbTrieStore.put (db : Db) (d : Digest) (t : Trie) : Db :=
  ainsert db d (serialize t)

/-- Modelled from the spec: `LmdbTrieStore` `get` — a direct engine read
followed by decoding; absent key gives `none`, undecodable bytes give the
decoding error (spec §4.3). -/
def LmdbTrieStore.get (db : Db) (d : Digest) : Except Error (Option Trie) :=
  match alookup db d with
  | none => .ok none
  | some bs =>
      match deserialize bs with
      | none => .error .BytesRepr
      | some t => .ok (some t)

/-- `ScratchTrieStore::put`: inserts `(true, trie)` into the cache, ignoring
the supplied transaction (the durable store is passed through untouched);
always succeeds in the sequential model (the lock cannot be poisoned). -/
def ScratchTrieStore.put (cache : Cache) (db : Db) (d : Digest) (t : Trie) :
    Except Error Unit × Cache × Db :=
  (.ok (), ainsert cache d (true, t), db)

/-- `ScratchTrieStore::get`: consult the cache first (any flag); on a miss
read the raw bytes through the transaction, deserialize (propagating a
decoding error), and insert a clean `(false, value)` entry only if no entry
is present for the digest.  Returns the result together with the cache
afterwards. -/
def ScratchTrieStore.get (cache : Cache) (db : Db) (d : Digest) :
    Except Error (Option Trie) × Cache :=
  match alookup cache d with
  | some (_, cached) => (.ok (some cached), cache)
  | none =>
      match alookup db d with
      | none => (.ok none, cache)
      | some bytes =>
          match deserialize bytes with
          | none => (.error .BytesRepr, cache)
          | some value =>
              if (alookup cache d).isSome then (.ok (some value), cache)
              else (.ok (some value), ainsert cache d (false, value))

/-- Termination measure helper: total weight of the cache (each entry counts
itself plus its children). -/
def cacheWeight (c : Cache) : Nat :=
  (c.map (fun p => 2 + (childrenList p.2.2).length)).sum

theorem cacheWeight_aremove (c : Cache) (d : Digest) (e : Bool × Trie)
    (c2 : Cache) (h : aremove c d = (some e, c2)) :
    cacheWeight c2 + 2 + (childrenList e.2).length = cacheWeight c := by
  induction c generalizing c2 with
  | nil => simp [aremove] at h
  | cons p tl ih =>
      by_cases hp : p.1 = d
      · simp only [aremove, hp, if_pos] at h
        obtain ⟨he, hc⟩ := Prod.mk.injEq .. ▸ h
        injection he with he
        subst he hc
        simp [cacheWeight]
        omega
      · simp only [aremove, hp, if_neg, not_false_iff] at h
        obtain ⟨he, hc⟩ := Prod.mk.injEq .. ▸ h
        cases hrem : aremove tl d with
        | mk r1 r2 =>
            rw [hrem] at he hc
            simp at he hc
            subst he
            have := ih r2 (by rw [hrem])
            subst hc
            simp [cacheWeight] at this ⊢
            omega

/-- The flush/validation loop of `ScratchTrieStore::write_root_to_db`
(the `while let Some(next_trie_key) = missing_trie_keys.pop()` loop).
The stack is kept top-first (`Vec::pop` takes the last element, so
`extend(children)` pushes the children with the last child popped first);
returns the `validated_tries` accumulator on success, paired with the cache
as mutated by the traversal. -/
def flushLoop (stack : List Digest) (cache : Cache) (validated : Validated)
    (db : Db) : Except Error Validated × Cache :=
  match stack with
  | [] => (.ok validated, cache)
  | d :: rest =>
      if cache.isEmpty = true then
        (.error (.CommitError (.TrieNotFoundDuringCacheValidate d)), cache)
      else
        match h : aremove cache d with
        | (some (false, _), cache2) => flushLoop rest cache2 validated db
        | (none, _) =>
            match alookup db d with
            | some _ => flushLoop rest cache validated db
            | none =>
                (.error (.CommitError (.TrieNotFoundDuringCacheValidate d)),
                  cache)
        | (some (true, t), cache2) =>
            flushLoop ((childrenList t).reverse ++ rest) cache2
              (ainsert validated d t) db
termination_by stack.length + cacheWeight cache
decreasing_by
  · have := cacheWeight_aremove cache d _ _ h
    simp [List.length_cons]
    omega
  · simp [List.length_cons]
  · have := cacheWeight_aremove cache d _ _ h
    simp at this
    simp [List.length_cons]
    omega

/-- Write every validated `(digest, trie)` pair to the durable store
(the `for (digest, trie) in validated_tries.iter()` loop). -/
def writeAll (db : Db) (validated : Validated) : Db :=
  validated.foldl (fun acc p => LmdbTrieStore.put acc p.1 p.2) db

/-- `ScratchTrieStore::write_root_to_db(state_root)`: open a read-write
transaction, run the validation traversal, then write every validated trie
and commit.  Returns (result, cache afterwards, durable store afterwards):
on error the transaction is dropped uncommitted, so the durable store is
unchanged, while the cache keeps the mutations the traversal made. -/
def ScratchTrieStore.write_root_to_db (cache : Cache) (db : Db)
    (state_root : Digest) : Except Error Unit × Cache × Db :=
  match flushLoop [state_root] cache [] db with
  | (.error e, cache2) => (.error e, cache2, db)
  | (.ok validated, cache2) => (.ok (), cache2, writeAll db validated)

/-! ### Unfolding lemmas for the flush loop -/

theorem flushLoop_nil (cache : Cache) (validated : Validated) (db : Db) :
    flushLoop [] cache validated db = (.ok validated, cache) := by
  rw [flushLoop.eq_def]

theorem flushLoop_cons_emptyCache (d : Digest) (rest : List Digest)
    (validated : Validated) (db : Db) :
    flushLoop (d :: rest) [] validated db
      = (.error (.CommitError (.TrieNotFoundDuringCacheValidate d)), []) := by
  rw [flushLoop.eq_def]
  simp

theorem flushLoop_cons_clean (d : Digest) (rest : List Digest) (cache cache2 : Cache)
    (t : Trie) (validated : Validated) (db : Db) (hc : cache.isEmpty = false)
    (h : aremove cache d = (some (false, t), cache2)) :
    flushLoop (d :: rest) cache validated db = flushLoop rest cache2 validated db := by
  rw [flushLoop.eq_def]
  simp only [hc, Bool.false_eq_true, if_false]
  split
  · rename_i t2 c2 heq
    rw [h] at heq
    simp at heq
    rw [heq.2]
  · rename_i c2 heq
    rw [h] at heq
    simp at heq
  · rename_i t2 c2 heq
    rw [h] at heq
    simp at heq

theorem flushLoop_cons_missing_durable (d : Digest) (rest : List Digest)
    (cache : Cache) (validated : Validated) (db : Db) (bs : Bytes)
    (hc : cache.isEmpty = false) (h : alookup cache d = none)
    (hdb : alookup db d = some bs) :
    flushLoop (d :: rest) cache validated db = flushLoop rest cache validated db := by
  have hrem : aremove cache d = (none, cache) := aremove_of_alookup_none cache d h
  rw [flushLoop.eq_def]
  simp only [hc, Bool.false_eq_true, if_false]
  split
  · rename_i t2 c2 heq
    rw [hrem] at heq
    simp at heq
  · rename_i c2 heq
    simp [hdb]
  · rename_i t2 c2 heq
    rw [hrem] at heq
    simp at heq

theorem flushLoop_cons_missing_absent (d : Digest) (rest : List Digest)
    (cache : Cache) (validated : Validated) (db : Db)
    (hc : cache.isEmpty = false) (h : alookup cache d = none)
    (hdb : alookup db d = none) :
    flushLoop (d :: rest) cache validated db
      = (.error (.CommitError (.TrieNotFoundDuringCacheValidate d)), cache) := by
  have hrem : aremove cache d = (none, cache) := aremove_of_alookup_none cache d h
  rw [flushLoop.eq_def]
  simp only [hc, Bool.false_eq_true, if_false]
  split
  · rename_i t2 c2 heq
    rw [hrem] at heq
    simp at heq
  · rename_i c2 heq
    simp [hdb]
  · rename_i t2 c2 heq
    rw [hrem] at heq
    simp at heq

theorem flushLoop_cons_dirty (d : Digest) (rest : List Digest) (cache cache2 : Cache)
    (t : Trie) (validated : Validated) (db : Db) (hc : cache.isEmpty = false)
    (h : aremove cache d = (some (true, t), cache2)) :
    flushLoop (d :: rest) cache validated db
      = flushLoop ((childrenList t).reverse ++ rest) cache2
          (ainsert validated d t) db := by
  rw [flushLoop.eq_def]
  simp only [hc, Bool.false_eq_true, if_false]
  split
  · rename_i t2 c2 heq
    rw [h] at heq
    simp at heq
  · rename_i c2 heq
    rw [h] at heq
    simp at heq
  · rename_i t2 c2 heq
    rw [h] at heq
    simp at heq
    rw [heq.1, heq.2]

/-! ### Dirty-reachability

`DPath cache s e` holds when `e` is reachable from `s` by following child
digests through *dirty* cache entries only — the paths along which the flush
traversal is guaranteed to descend. -/

inductive DPath (cache : Cache) : Digest → Digest → Prop where
  | refl (d : Digest) : DPath cache d d
  | cons {d c e : Digest} {t : Trie} (hlook : alookup cache d = some (true, t))
      (hc : c ∈ childrenList t) (hp : DPath cache c e) : DPath cache d e

theorem dpath_head_none {cache : Cache} {s e : Digest}
    (h : alookup cache s = none) (hp : DPath cache s e) : e = s := by
  cases hp with
  | refl => rfl
  | cons hlook hc hp => rw [h] at hlook; exact absurd hlook (by simp)

theorem dpath_remove_dirty {cache cache2 : Cache} {x : Digest} {tx : Trie}
    (hrem : aremove cache x = (some (true, tx), cache2)) {s e : Digest}
    (hp : DPath cache s e) :
    e = x ∨ (∃ c, c ∈ childrenList tx ∧ DPath cache2 c e) ∨ DPath cache2 s e := by
  induction hp with
  | refl d =>
      by_cases hd : d = x
      · left; exact hd
      · right; right; exact .refl d
  | cons hlook hc hp ih =>
      rename_i d c e t
      rcases ih with he | hmid | htail
      · left; exact he
      · right; left; exact hmid
      · by_cases hdx : d = x
        · have hx : alookup cache x = some (true, tx) := by
            rw [← aremove_fst, hrem]
          rw [hdx, hx] at hlook
          injection hlook with hlook
          injection hlook with _ hlook
          right; left
          exact ⟨c, hlook ▸ hc, htail⟩
        · right; right
          refine DPath.cons ?_ hc htail
          have := @aremove_lookup_ne _ cache x d hdx
          rw [hrem] at this
          rw [this]
          exact hlook

theorem dpath_remove_clean {cache cache2 : Cache} {x : Digest} {tx : Trie}
    (hrem : aremove cache x = (some (false, tx), cache2)) {s e : Digest}
    (hp : DPath cache s e) : e = x ∨ DPath cache2 s e := by
  induction hp with
  | refl d =>
      by_cases hd : d = x
      · left; exact hd
      · right; exact .refl d
  | cons hlook hc hp ih =>
      rename_i d c e t
      have hdx : d ≠ x := by
        intro hdx
        have hx : alookup cache x = some (false, tx) := by
          rw [← aremove_fst, hrem]
        rw [hdx, hx] at hlook
        injection hlook with hlook
        injection hlook with hb _
        exact Bool.noConfusion hb
      rcases ih with he | htail
      · left; exact he
      · right
        refine DPath.cons ?_ hc htail
        have := @aremove_lookup_ne _ cache x d hdx
        rw [hrem] at this
        rw [this]
        exact hlook

/-- Convert the negated boolean emptiness guard into an equation. -/
theorem isEmpty_false_of_ne {cache : Cache} (h : ¬cache.isEmpty = true) :
    cache.isEmpty = false := by
  revert h
  cases cache.isEmpty <;> simp

/-- The traversal can only shrink the cache: any digest present afterwards was
present before. -/
theorem flushLoop_cache_shrink : ∀ (stack : List Digest) (cache : Cache)
    (validated : Validated) (db : Db) (e : Digest),
    alookup (flushLoop stack cache validated db).2 e ≠ none →
    alookup cache e ≠ none := by
  intro stack cache validated db
  induction stack, cache, validated, db using flushLoop.induct with
  | case1 cache validated db =>
      intro e h
      rwa [flushLoop_nil] at h
  | case2 cache validated db d rest hempty =>
      intro e h
      have hnil : cache = [] := by
        cases cache
        · rfl
        · simp [List.isEmpty] at hempty
      subst hnil
      rwa [flushLoop_cons_emptyCache] at h
  | case3 cache validated db d rest hne t cache2 hrem ih =>
      intro e h
      rw [flushLoop_cons_clean d rest cache cache2 t validated db
        (isEmpty_false_of_ne hne) hrem] at h
      have h2 := ih e h
      have := @aremove_lookup_isSome _ cache d e
      rw [hrem] at this
      exact this h2
  | case4 cache validated db d rest hne snd hrem bs hdb ih =>
      intro e h
      have hlk : alookup cache d = none := by
        rw [← aremove_fst, hrem]
      rw [flushLoop_cons_missing_durable d rest cache validated db bs
        (isEmpty_false_of_ne hne) hlk hdb] at h
      exact ih e h
  | case5 cache validated db d rest hne snd hrem hdb =>
      intro e h
      have hlk : alookup cache d = none := by
        rw [← aremove_fst, hrem]
      rwa [flushLoop_cons_missing_absent d rest cache validated db
        (isEmpty_false_of_ne hne) hlk hdb] at h
  | case6 cache validated db d rest hne t cache2 hrem ih =>
      intro e h
      rw [flushLoop_cons_dirty d rest cache cache2 t validated db
        (isEmpty_false_of_ne hne) hrem] at h
      have h2 := ih e h
      have := @aremove_lookup_isSome _ cache d e
      rw [hrem] at this
      exact this h2

/-- The only error the flush loop produces is the cache-validation error. -/
theorem flushLoop_error_shape : ∀ (stack : List Digest) (cache : Cache)
    (validated : Validated) (db : Db) (err : Error) (cfin : Cache),
    flushLoop stack cache validated db = (.error err, cfin) →
    ∃ d2, err = .CommitError (.TrieNotFoundDuringCacheValidate d2) := by
  intro stack cache validated db
  induction stack, cache, validated, db using flushLoop.induct with
  | case1 cache validated db =>
      intro err cfin h
      rw [flushLoop_nil] at h
      exact absurd h (by simp)
  | case2 cache validated db d rest hempty =>
      intro err cfin h
      have hnil : cache = [] := by
        cases cache
        · rfl
        · simp [List.isEmpty] at hempty
      subst hnil
      rw [flushLoop_cons_emptyCache] at h
      refine ⟨d, ?_⟩
      have := congrArg Prod.fst h
      simp at this
      exact this.symm
  | case3 cache validated db d rest hne t cache2 hrem ih =>
      intro err cfin h
      rw [flushLoop_cons_clean d rest cache cache2 t validated db
        (isEmpty_false_of_ne hne) hrem] at h
      exact ih err cfin h
  | case4 cache validated db d rest hne snd hrem bs hdb ih =>
      intro err cfin h
      have hlk : alookup cache d = none := by
        rw [← aremove_fst, hrem]
      rw [flushLoop_cons_missing_durable d rest cache validated db bs
        (isEmpty_false_of_ne hne) hlk hdb] at h
      exact ih err cfin h
  | case5 cache validated db d rest hne snd hrem hdb =>
      intro err cfin h
      have hlk : alookup cache d = none := by
        rw [← aremove_fst, hrem]
      rw [flushLoop_cons_missing_absent d rest cache validated db
        (isEmpty_false_of_ne hne) hlk hdb] at h
      refine ⟨d, ?_⟩
      have := congrArg Prod.fst h
      simp at this
      exact this.symm
  | case6 cache validated db d rest hne t cache2 hrem ih =>
      intro err cfin h
      rw [flushLoop_cons_dirty d rest cache cache2 t validated db
        (isEmpty_false_of_ne hne) hrem] at h
      exact ih err cfin h

/-- If the flush loop succeeds, then every digest dirty-reachable from a stack
entry was present in the cache or present in the durable store: the traversal
cannot succeed past a dirty path leading to a digest that is in neither. -/
theorem flushLoop_ok_reaches : ∀ (stack : List Digest) (cache : Cache)
    (validated : Validated) (db : Db),
    (akeys cache).Nodup →
    ∀ (vfin : Validated) (cfin : Cache),
    flushLoop stack cache validated db = (.ok vfin, cfin) →
    ∀ (s e : Digest), s ∈ stack → DPath cache s e →
    alookup cache e ≠ none ∨ alookup db e ≠ none := by
  intro stack cache validated db
  induction stack, cache, validated, db using flushLoop.induct with
  | case1 cache validated db =>
      intro _ vfin cfin _ s e hs _
      exact absurd hs (List.not_mem_nil s)
  | case2 cache validated db d rest hempty =>
      intro _ vfin cfin hok s e hs hp
      have hnil : cache = [] := by
        cases cache
        · rfl
        · simp [List.isEmpty] at hempty
      subst hnil
      rw [flushLoop_cons_emptyCache] at hok
      exact absurd (congrArg Prod.fst hok) (by simp)
  | case3 cache validated db d rest hne t cache2 hrem ih =>
      intro hnd vfin cfin hok s e hs hp
      rw [flushLoop_cons_clean d rest cache cache2 t validated db
        (isEmpty_false_of_ne hne) hrem] at hok
      have hnd2 : (akeys cache2).Nodup := by
        have := akeys_nodup_aremove cache d hnd
        rw [hrem] at this
        exact this
      have hlkd : alookup cache d = some (false, t) := by
        rw [← aremove_fst, hrem]
      have hselfgone : alookup cache2 d = none := by
        have := aremove_lookup_self_nodup cache d hnd
        rw [hrem] at this
        exact this
      rcases dpath_remove_clean hrem hp with he | htail
      · left; rw [he, hlkd]; simp
      · rcases List.mem_cons.mp hs with hsd | hsrest
        · subst hsd
          have he := dpath_head_none hselfgone htail
          left; rw [he, hlkd]; simp
        · have := ih hnd2 vfin cfin hok s e hsrest htail
          rcases this with hcc | hdd
          · left
            have hmono := @aremove_lookup_isSome _ cache d e
            rw [hrem] at hmono
            exact hmono hcc
          · right; exact hdd
  | case4 cache validated db d rest hne snd hrem bs hdb ih =>
      intro hnd vfin cfin hok s e hs hp
      have hlk : alookup cache d = none := by
        rw [← aremove_fst, hrem]
      rw [flushLoop_cons_missing_durable d rest cache validated db bs
        (isEmpty_false_of_ne hne) hlk hdb] at hok
      rcases List.mem_cons.mp hs with hsd | hsrest
      · subst hsd
        have he := dpath_head_none hlk hp
        right; rw [he, hdb]; simp
      · exact ih hnd vfin cfin hok s e hsrest hp
  | case5 cache validated db d rest hne snd hrem hdb =>
      intro hnd vfin cfin hok s e hs hp
      have hlk : alookup cache d = none := by
        rw [← aremove_fst, hrem]
      rw [flushLoop_cons_missing_absent d rest cache validated db
        (isEmpty_false_of_ne hne) hlk hdb] at hok
      exact absurd (congrArg Prod.fst hok) (by simp)
  | case6 cache validated db d rest hne t cache2 hrem ih =>
      intro hnd vfin cfin hok s e hs hp
      rw [flushLoop_cons_dirty d rest cache cache2 t validated db
        (isEmpty_false_of_ne hne) hrem] at hok
      have hnd2 : (akeys cache2).Nodup := by
        have := akeys_nodup_aremove cache d hnd
        rw [hrem] at this
        exact this
      have hlkd : alookup cache d = some (true, t) := by
        rw [← aremove_fst, hrem]
      have hselfgone : alookup cache2 d = none := by
        have := aremove_lookup_self_nodup cache d hnd
        rw [hrem] at this
        exact this
      have hmono := @aremove_lookup_isSome _ cache d e
      rw [hrem] at hmono
      rcases dpath_remove_dirty hrem hp with he | hmid | htail
      · left; rw [he, hlkd]; simp
      · obtain ⟨c, hcmem, hcp⟩ := hmid
        have hcstack : c ∈ (childrenList t).reverse ++ rest :=
          List.mem_append_left rest (List.mem_reverse.mpr hcmem)
        rcases ih hnd2 vfin cfin hok c e hcstack hcp with hcc | hdd
        · left; exact hmono hcc
        · right; exact hdd
      · rcases List.mem_cons.mp hs with hsd | hsrest
        · subst hsd
          have he := dpath_head_none hselfgone htail
          left; rw [he, hlkd]; simp
        · have hsstack : s ∈ (childrenList t).reverse ++ rest :=
            List.mem_append_right _ hsrest
          rcases ih hnd2 vfin cfin hok s e hsstack htail with hcc | hdd
          · left; exact hmono hcc
          · right; exact hdd

/-! ### Small-step view of the traversal

`FlushStep` is one successful iteration of the flush loop (pop, classify,
continue); `Reach` is its reflexive-transitive closure and `Visited` says the
traversal starting from a configuration at some point pops the given digest.
These give the spec's notions of "the moment `d` is popped" and "visited by
the traversal". -/

/-- One non-failing iteration of the flush loop on a configuration
(stack, cache, validated accumulator). -/
inductive FlushStep (db : Db) :
    List Digest × Cache × Validated → List Digest × Cache × Validated → Prop where
  | clean {d : Digest} {rest : List Digest} {cache cache2 : Cache} {t : Trie}
      {validated : Validated} (hc : cache.isEmpty = false)
      (h : aremove cache d = (some (false, t), cache2)) :
      FlushStep db (d :: rest, cache, validated) (rest, cache2, validated)
  | durable {d : Digest} {rest : List Digest} {cache : Cache}
      {validated : Validated} {bs : Bytes} (hc : cache.isEmpty = false)
      (h : alookup cache d = none) (hdb : alookup db d = some bs) :
      FlushStep db (d :: rest, cache, validated) (rest, cache, validated)
  | dirty {d : Digest} {rest : List Digest} {cache cache2 : Cache} {t : Trie}
      {validated : Validated} (hc : cache.isEmpty = false)
      (h : aremove cache d = (some (true, t), cache2)) :
      FlushStep db (d :: rest, cache, validated)
        ((childrenList t).reverse ++ rest, cache2, ainsert validated d t)

/-- Reachability between traversal configurations. -/
def Reach (db : Db) : (List Digest × Cache × Validated) →
    (List Digest × Cache × Validated) → Prop :=
  Relation.ReflTransGen (FlushStep db)

/-- The traversal starting from `init` at some point pops digest `d`. -/
def Visited (db : Db) (init : List Digest × Cache × Validated) (d : Digest) :
    Prop :=
  ∃ rest cache2 validated2, Reach db init (d :: rest, cache2, validated2)

theorem flushLoop_step_eq {db : Db} {a b : List Digest × Cache × Validated}
    (h : FlushStep db a b) :
    flushLoop a.1 a.2.1 a.2.2 db = flushLoop b.1 b.2.1 b.2.2 db := by
  cases h with
  | clean hc h => exact flushLoop_cons_clean _ _ _ _ _ _ _ hc h
  | durable hc h hdb => exact flushLoop_cons_missing_durable _ _ _ _ _ _ hc h hdb
  | dirty hc h => exact flushLoop_cons_dirty _ _ _ _ _ _ _ hc h

theorem flushLoop_reach_eq {db : Db} {a b : List Digest × Cache × Validated}
    (h : Reach db a b) :
    flushLoop a.1 a.2.1 a.2.2 db = flushLoop b.1 b.2.1 b.2.2 db := by
  induction h with
  | refl => rfl
  | tail _ hstep ih => rw [ih, flushLoop_step_eq hstep]

/-- Forward characterization: an error result exhibits a reachable
configuration popping the offending digest under one of the two failure
conditions. -/
theorem flushLoop_err_reach : ∀ (stack : List Digest) (cache : Cache)
    (validated : Validated) (db : Db) (d : Digest) (cfin : Cache),
    flushLoop stack cache validated db
      = (.error (.CommitError (.TrieNotFoundDuringCacheValidate d)), cfin) →
    ∃ rest cache2 validated2,
      Reach db (stack, cache, validated) (d :: rest, cache2, validated2) ∧
      (cache2.isEmpty = true ∨
        (alookup cache2 d = none ∧ alookup db d = none)) := by
  intro stack cache validated db
  induction stack, cache, validated, db using flushLoop.induct with
  | case1 cache validated db =>
      intro d cfin h
      rw [flushLoop_nil] at h
      exact absurd (congrArg Prod.fst h) (by simp)
  | case2 cache validated db d0 rest hempty =>
      intro d cfin h
      have hnil : cache = [] := by
        cases cache
        · rfl
        · simp [List.isEmpty] at hempty
      subst hnil
      rw [flushLoop_cons_emptyCache] at h
      have hd : d0 = d := by
        have := congrArg Prod.fst h
        simp at this
        exact this
      subst hd
      exact ⟨rest, [], validated, Relation.ReflTransGen.refl, Or.inl rfl⟩
  | case3 cache validated db d0 rest hne t cache2 hrem ih =>
      intro d cfin h
      rw [flushLoop_cons_clean d0 rest cache cache2 t validated db
        (isEmpty_false_of_ne hne) hrem] at h
      obtain ⟨rest2, c2, v2, hreach, hcond⟩ := ih d cfin h
      exact ⟨rest2, c2, v2,
        Relation.ReflTransGen.head
          (FlushStep.clean (isEmpty_false_of_ne hne) hrem) hreach, hcond⟩
  | case4 cache validated db d0 rest hne snd hrem bs hdb ih =>
      intro d cfin h
      have hlk : alookup cache d0 = none := by
        rw [← aremove_fst, hrem]
      rw [flushLoop_cons_missing_durable d0 rest cache validated db bs
        (isEmpty_false_of_ne hne) hlk hdb] at h
      obtain ⟨rest2, c2, v2, hreach, hcond⟩ := ih d cfin h
      exact ⟨rest2, c2, v2,
        Relation.ReflTransGen.head
          (FlushStep.durable (isEmpty_false_of_ne hne) hlk hdb) hreach, hcond⟩
  | case5 cache validated db d0 rest hne snd hrem hdb =>
      intro d cfin h
      have hlk : alookup cache d0 = none := by
        rw [← aremove_fst, hrem]
      rw [flushLoop_cons_missing_absent d0 rest cache validated db
        (isEmpty_false_of_ne hne) hlk hdb] at h
      have hd : d0 = d := by
        have := congrArg Prod.fst h
        simp at this
        exact this
      subst hd
      exact ⟨rest, cache, validated, Relation.ReflTransGen.refl,
        Or.inr ⟨hlk, hdb⟩⟩
  | case6 cache validated db d0 rest hne t cache2 hrem ih =>
      intro d cfin h
      rw [flushLoop_cons_dirty d0 rest cache cache2 t validated db
        (isEmpty_false_of_ne hne) hrem] at h
      obtain ⟨rest2, c2, v2, hreach, hcond⟩ := ih d cfin h
      exact ⟨rest2, c2, v2,
        Relation.ReflTransGen.head
          (FlushStep.dirty (isEmpty_false_of_ne hne) hrem) hreach, hcond⟩

/-- Backward characterization: a reachable configuration exhibiting a failure
condition forces the loop to return the validation error for that digest. -/
theorem flushLoop_reach_err (stack : List Digest) (cache : Cache)
    (validated : Validated) (db : Db) (d : Digest) (rest : List Digest)
    (cache2 : Cache) (validated2 : Validated)
    (hreach : Reach db (stack, cache, validated) (d :: rest, cache2, validated2))
    (hcond : cache2.isEmpty = true ∨
      (alookup cache2 d = none ∧ alookup db d = none)) :
    ∃ cfin, flushLoop stack cache validated db
      = (.error (.CommitError (.TrieNotFoundDuringCacheValidate d)), cfin) := by
  have heq := flushLoop_reach_eq hreach
  simp only at heq
  rcases hcond with hcempty | ⟨hlk, hdb⟩
  · have hnil : cache2 = [] := by
      cases cache2
      · rfl
      · simp [List.isEmpty] at hcempty
    subst hnil
    rw [flushLoop_cons_emptyCache] at heq
    exact ⟨[], heq⟩
  · cases hcase : cache2.isEmpty with
    | true =>
        have hnil : cache2 = [] := by
          cases cache2
          · rfl
          · simp [List.isEmpty] at hcase
        subst hnil
        rw [flushLoop_cons_emptyCache] at heq
        exact ⟨[], heq⟩
    | false =>
        rw [flushLoop_cons_missing_absent d rest cache2 validated2 db
          hcase hlk hdb] at heq
        exact ⟨cache2, heq⟩

/-- Every digest the traversal pops is absent from the cache the flush loop
returns: processing a digest removes it (or finds it already absent), and
nothing is ever re-inserted. -/
theorem flushLoop_visited_removed : ∀ (stack : List Digest) (cache : Cache)
    (validated : Validated) (db : Db),
    (akeys cache).Nodup →
    ∀ e, Visited db (stack, cache, validated) e →
    alookup (flushLoop stack cache validated db).2 e = none := by
  intro stack cache validated db
  induction stack, cache, validated, db using flushLoop.induct with
  | case1 cache validated db =>
      intro _ e hvis
      obtain ⟨r2, c2, v2, hreach⟩ := hvis
      rcases Relation.ReflTransGen.cases_head hreach with heq | ⟨mid, hstep, _⟩
      · exact absurd (congrArg Prod.fst heq) (by simp)
      · cases hstep
  | case2 cache validated db d rest hempty =>
      intro _ e _
      have hnil : cache = [] := by
        cases cache
        · rfl
        · simp [List.isEmpty] at hempty
      subst hnil
      rw [flushLoop_cons_emptyCache]
      simp [alookup]
  | case3 cache validated db d rest hne t cache2 hrem ih =>
      intro hnd e hvis
      rw [flushLoop_cons_clean d rest cache cache2 t validated db
        (isEmpty_false_of_ne hne) hrem]
      have hnd2 : (akeys cache2).Nodup := by
        have := akeys_nodup_aremove cache d hnd
        rw [hrem] at this
        exact this
      have hselfgone : alookup cache2 d = none := by
        have := aremove_lookup_self_nodup cache d hnd
        rw [hrem] at this
        exact this
      obtain ⟨r2, c2, v2, hreach⟩ := hvis
      rcases Relation.ReflTransGen.cases_head hreach with heq | ⟨mid, hstep, htail⟩
      · have hde : d = e := by
          have := congrArg Prod.fst heq
          simp at this
          exact this.1
        subst hde
        by_contra hne2
        have := flushLoop_cache_shrink rest cache2 validated db d hne2
        exact this hselfgone
      · cases hstep with
        | clean hc2 h2 =>
            rw [hrem] at h2
            injection h2 with h2a h2b
            injection h2a with h2a
            injection h2a with _ h2t
            subst h2b
            exact ih hnd2 e ⟨r2, c2, v2, htail⟩
        | durable hc2 h2 hdb2 =>
            rw [← aremove_fst, hrem] at h2
            exact absurd h2 (by simp)
        | dirty hc2 h2 =>
            rw [hrem] at h2
            injection h2 with h2a h2b
            injection h2a with h2a
            injection h2a with h2flag _
            exact Bool.noConfusion h2flag
  | case4 cache validated db d rest hne snd hrem bs hdb ih =>
      intro hnd e hvis
      have hlk : alookup cache d = none := by
        rw [← aremove_fst, hrem]
      rw [flushLoop_cons_missing_durable d rest cache validated db bs
        (isEmpty_false_of_ne hne) hlk hdb]
      obtain ⟨r2, c2, v2, hreach⟩ := hvis
      rcases Relation.ReflTransGen.cases_head hreach with heq | ⟨mid, hstep, htail⟩
      · have hde : d = e := by
          have := congrArg Prod.fst heq
          simp at this
          exact this.1
        subst hde
        by_contra hne2
        have := flushLoop_cache_shrink rest cache validated db d hne2
        exact this hlk
      · cases hstep with
        | clean hc2 h2 =>
            rw [← aremove_fst] at hlk
            rw [h2] at hlk
            exact absurd hlk (by simp)
        | durable hc2 h2 hdb2 =>
            exact ih hnd e ⟨r2, c2, v2, htail⟩
        | dirty hc2 h2 =>
            rw [← aremove_fst] at hlk
            rw [h2] at hlk
            exact absurd hlk (by simp)
  | case5 cache validated db d rest hne snd hrem hdb =>
      intro hnd e hvis
      have hlk : alookup cache d = none := by
        rw [← aremove_fst, hrem]
      rw [flushLoop_cons_missing_absent d rest cache validated db
        (isEmpty_false_of_ne hne) hlk hdb]
      obtain ⟨r2, c2, v2, hreach⟩ := hvis
      rcases Relation.ReflTransGen.cases_head hreach with heq | ⟨mid, hstep, htail⟩
      · have hde : d = e := by
          have := congrArg Prod.fst heq
          simp at this
          exact this.1
        subst hde
        exact hlk
      · cases hstep with
        | clean hc2 h2 =>
            rw [← aremove_fst] at hlk
            rw [h2] at hlk
            exact absurd hlk (by simp)
        | durable hc2 h2 hdb2 =>
            rw [hdb2] at hdb
            exact absurd hdb (by simp)
        | dirty hc2 h2 =>
            rw [← aremove_fst] at hlk
            rw [h2] at hlk
            exact absurd hlk (by simp)
  | case6 cache validated db d rest hne t cache2 hrem ih =>
      intro hnd e hvis
      rw [flushLoop_cons_dirty d rest cache cache2 t validated db
        (isEmpty_false_of_ne hne) hrem]
      have hnd2 : (akeys cache2).Nodup := by
        have := akeys_nodup_aremove cache d hnd
        rw [hrem] at this
        exact this
      have hselfgone : alookup cache2 d = none := by
        have := aremove_lookup_self_nodup cache d hnd
        rw [hrem] at this
        exact this
      obtain ⟨r2, c2, v2, hreach⟩ := hvis
      rcases Relation.ReflTransGen.cases_head hreach with heq | ⟨mid, hstep, htail⟩
      · have hde : d = e := by
          have := congrArg Prod.fst heq
          simp at this
          exact this.1
        subst hde
        by_contra hne2
        have := flushLoop_cache_shrink ((childrenList t).reverse ++ rest) cache2
          (ainsert validated d t) db d hne2
        exact this hselfgone
      · cases hstep with
        | clean hc2 h2 =>
            rw [hrem] at h2
            injection h2 with h2a h2b
            injection h2a with h2a
            injection h2a with h2flag _
            exact Bool.noConfusion h2flag
        | durable hc2 h2 hdb2 =>
            rw [← aremove_fst, hrem] at h2
            exact absurd h2 (by simp)
        | dirty hc2 h2 =>
            rw [hrem] at h2
            injection h2 with h2a h2b
            injection h2a with h2a
            injection h2a with _ h2t
            subst h2t h2b
            exact ih hnd2 e ⟨r2, c2, v2, htail⟩

/-- Cache entries for digests the traversal never pops are untouched by the
flush loop. -/
theorem flushLoop_unvisited_unchanged : ∀ (stack : List Digest) (cache : Cache)
    (validated : Validated) (db : Db),
    ∀ e, ¬ Visited db (stack, cache, validated) e →
    alookup (flushLoop stack cache validated db).2 e = alookup cache e := by
  intro stack cache validated db
  induction stack, cache, validated, db using flushLoop.induct with
  | case1 cache validated db =>
      intro e _
      rw [flushLoop_nil]
  | case2 cache validated db d rest hempty =>
      intro e _
      have hnil : cache = [] := by
        cases cache
        · rfl
        · simp [List.isEmpty] at hempty
      subst hnil
      rw [flushLoop_cons_emptyCache]
  | case3 cache validated db d rest hne t cache2 hrem ih =>
      intro e hnv
      have hed : e ≠ d := by
        intro hed
        exact hnv ⟨rest, cache, validated, hed ▸ Relation.ReflTransGen.refl⟩
      have hnv2 : ¬ Visited db (rest, cache2, validated) e := by
        intro ⟨r2, c2, v2, hreach⟩
        exact hnv ⟨r2, c2, v2, Relation.ReflTransGen.head
          (FlushStep.clean (isEmpty_false_of_ne hne) hrem) hreach⟩
      rw [flushLoop_cons_clean d rest cache cache2 t validated db
        (isEmpty_false_of_ne hne) hrem]
      rw [ih e hnv2]
      have := @aremove_lookup_ne _ cache d e hed
      rw [hrem] at this
      exact this
  | case4 cache validated db d rest hne snd hrem bs hdb ih =>
      intro e hnv
      have hlk : alookup cache d = none := by
        rw [← aremove_fst, hrem]
      have hnv2 : ¬ Visited db (rest, cache, validated) e := by
        intro ⟨r2, c2, v2, hreach⟩
        exact hnv ⟨r2, c2, v2, Relation.ReflTransGen.head
          (FlushStep.durable (isEmpty_false_of_ne hne) hlk hdb) hreach⟩
      rw [flushLoop_cons_missing_durable d rest cache validated db bs
        (isEmpty_false_of_ne hne) hlk hdb]
      exact ih e hnv2
  | case5 cache validated db d rest hne snd hrem hdb =>
      intro e _
      have hlk : alookup cache d = none := by
        rw [← aremove_fst, hrem]
      rw [flushLoop_cons_missing_absent d rest cache validated db
        (isEmpty_false_of_ne hne) hlk hdb]
  | case6 cache validated db d rest hne t cache2 hrem ih =>
      intro e hnv
      have hed : e ≠ d := by
        intro hed
        exact hnv ⟨rest, cache, validated, hed ▸ Relation.ReflTransGen.refl⟩
      have hnv2 : ¬ Visited db ((childrenList t).reverse ++ rest, cache2,
          ainsert validated d t) e := by
        intro ⟨r2, c2, v2, hreach⟩
        exact hnv ⟨r2, c2, v2, Relation.ReflTransGen.head
          (FlushStep.dirty (isEmpty_false_of_ne hne) hrem) hreach⟩
      rw [flushLoop_cons_dirty d rest cache cache2 t validated db
        (isEmpty_false_of_ne hne) hrem]
      rw [ih e hnv2]
      have := @aremove_lookup_ne _ cache d e hed
      rw [hrem] at this
      exact this

/-! ### Writing the validated tries -/

theorem writeAll_cons (db : Db) (k : Digest) (t : Trie) (tl : Validated) :
    writeAll db ((k, t) :: tl) = writeAll (LmdbTrieStore.put db k t) tl := rfl

theorem writeAll_lookup_not_mem (validated : Validated) : ∀ (db : Db)
    (d : Digest), d ∉ akeys validated →
    alookup (writeAll db validated) d = alookup db d := by
  induction validated with
  | nil => intro db d _; rfl
  | cons p tl ih =>
      intro db d hd
      have hdk : d ≠ p.1 := by
        intro h
        exact hd (by simp [akeys, h])
      have hdtl : d ∉ akeys tl := by
        intro h
        exact hd (by simp [akeys] at h ⊢; right; exact h)
      cases p with
      | mk k t =>
          rw [writeAll_cons, ih (LmdbTrieStore.put db k t) d hdtl]
          exact alookup_ainsert_ne db (serialize t) hdk

theorem writeAll_lookup_mem (validated : Validated) : ∀ (db : Db)
    (d : Digest) (t : Trie), (akeys validated).Nodup →
    alookup validated d = some t →
    alookup (writeAll db validated) d = some (serialize t) := by
  induction validated with
  | nil => intro db d t _ h; simp [alookup] at h
  | cons p tl ih =>
      intro db d t hnd h
      cases p with
      | mk k tv =>
          simp [akeys] at hnd
          by_cases hk : k = d
          · subst hk
            simp [alookup] at h
            subst h
            rw [writeAll_cons]
            have hnotin : k ∉ akeys tl := by
              intro hmem
              simp [akeys] at hmem
              obtain ⟨b, hb⟩ := hmem
              exact hnd.1 b hb
            rw [writeAll_lookup_not_mem tl _ k hnotin]
            exact alookup_ainsert_self db k (serialize tv)
          · simp [alookup, hk] at h
            rw [writeAll_cons]
            exact ih _ d t hnd.2 h

/-- The flush loop only ever inserts into `validated_tries`, so its key set
stays duplicate-free. -/
theorem flushLoop_validated_nodup : ∀ (stack : List Digest) (cache : Cache)
    (validated : Validated) (db : Db),
    (akeys validated).Nodup →
    ∀ (vfin : Validated) (cfin : Cache),
    flushLoop stack cache validated db = (.ok vfin, cfin) →
    (akeys vfin).Nodup := by
  intro stack cache validated db
  induction stack, cache, validated, db using flushLoop.induct with
  | case1 cache validated db =>
      intro hnd vfin cfin h
      rw [flushLoop_nil] at h
      have := congrArg Prod.fst h
      simp at this
      rw [← this]
      exact hnd
  | case2 cache validated db d rest hempty =>
      intro hnd vfin cfin h
      have hnil : cache = [] := by
        cases cache
        · rfl
        · simp [List.isEmpty] at hempty
      subst hnil
      rw [flushLoop_cons_emptyCache] at h
      exact absurd (congrArg Prod.fst h) (by simp)
  | case3 cache validated db d rest hne t cache2 hrem ih =>
      intro hnd vfin cfin h
      rw [flushLoop_cons_clean d rest cache cache2 t validated db
        (isEmpty_false_of_ne hne) hrem] at h
      exact ih hnd vfin cfin h
  | case4 cache validated db d rest hne snd hrem bs hdb ih =>
      intro hnd vfin cfin h
      have hlk : alookup cache d = none := by
        rw [← aremove_fst, hrem]
      rw [flushLoop_cons_missing_durable d rest cache validated db bs
        (isEmpty_false_of_ne hne) hlk hdb] at h
      exact ih hnd vfin cfin h
  | case5 cache validated db d rest hne snd hrem hdb =>
      intro hnd vfin cfin h
      have hlk : alookup cache d = none := by
        rw [← aremove_fst, hrem]
      rw [flushLoop_cons_missing_absent d rest cache validated db
        (isEmpty_false_of_ne hne) hlk hdb] at h
      exact absurd (congrArg Prod.fst h) (by simp)
  | case6 cache validated db d rest hne t cache2 hrem ih =>
      intro hnd vfin cfin h
      rw [flushLoop_cons_dirty d rest cache cache2 t validated db
        (isEmpty_false_of_ne hne) hrem] at h
      exact ih (akeys_nodup_ainsert validated d t hnd) vfin cfin h

/-! ### Tree-shaped closures -/

/-- All child references of all cache entries, concatenated. -/
def cacheChildren : Cache → List Digest
  | [] => []
  | p :: tl => childrenList p.2.2 ++ cacheChildren tl

theorem cacheChildren_append (a b : Cache) :
    cacheChildren (a ++ b) = cacheChildren a ++ cacheChildren b := by
  induction a with
  | nil => simp [cacheChildren]
  | cons p tl ih => simp [cacheChildren, ih]

theorem mem_cacheChildren {e : Digest} {c : Cache} :
    e ∈ cacheChildren c ↔ ∃ p ∈ c, e ∈ childrenList p.2.2 := by
  induction c with
  | nil => simp [cacheChildren]
  | cons p tl ih =>
      simp [cacheChildren, ih]

theorem akeys_append {β : Type} (a b : AssocL β) :
    akeys (a ++ b) = akeys a ++ akeys b := List.map_append Prod.fst a b

/-- Flushing a tree-shaped, fully-buffered closure: if every stack entry and
every buffered child reference is accounted for exactly once (the permutation
hypothesis) and every cache key is dirty-reachable from the stack, the loop
succeeds, drains the cache completely, and validates exactly the cache's
entries on top of the accumulator. -/
theorem flushLoop_tree : ∀ (n : Nat) (cache : Cache) (stack : List Digest)
    (validated : Validated) (db : Db),
    cache.length = n →
    (akeys cache).Nodup →
    (∀ p ∈ cache, p.2.1 = true) →
    (stack ++ cacheChildren cache).Perm (akeys cache) →
    (∀ e ∈ akeys cache, ∃ s ∈ stack, DPath cache s e) →
    ∃ vfin, flushLoop stack cache validated db = (.ok vfin, []) ∧
      (∀ e t, alookup cache e = some (true, t) → alookup vfin e = some t) ∧
      (∀ e, alookup cache e = none → alookup vfin e = alookup validated e) := by
  intro n
  induction n using Nat.strong_induction_on with
  | _ n ih =>
      intro cache stack validated db hlen hnd hdirty hperm hreach
      cases stack with
      | nil =>
          have hkeys_nil : akeys cache = [] :=
            List.eq_nil_iff_forall_not_mem.mpr (fun e he => by
              obtain ⟨s, hs, _⟩ := hreach e he
              exact absurd hs (List.not_mem_nil s))
          have hcache_nil : cache = [] := by
            cases cache with
            | nil => rfl
            | cons p tl => simp [akeys] at hkeys_nil
          subst hcache_nil
          rw [flushLoop_nil]
          refine ⟨validated, rfl, ?_, ?_⟩
          · intro e t h
            simp [alookup] at h
          · intro e _
            rfl
      | cons s rest =>
          have hsmem : s ∈ akeys cache := hperm.mem_iff.mp (by simp)
          obtain ⟨ee, hlk⟩ := alookup_isSome_of_mem_keys cache s hsmem
          have hmem := mem_of_alookup_eq_some cache s ee hlk
          have hdirt := hdirty (s, ee) hmem
          obtain ⟨b, t⟩ := ee
          simp at hdirt
          subst hdirt
          obtain ⟨pre, suf, hsplit, hpre, hrem⟩ := aremove_split cache s (true, t) hlk
          have hne : cache.isEmpty = false := by
            rw [hsplit]; cases pre <;> simp [List.isEmpty]
          have hnd2 : (akeys (pre ++ suf)).Nodup := by
            have := akeys_nodup_aremove cache s hnd
            rw [hrem] at this
            exact this
          have hselfgone : alookup (pre ++ suf) s = none := by
            have := aremove_lookup_self_nodup cache s hnd
            rw [hrem] at this
            exact this
          have hdirty2 : ∀ p ∈ pre ++ suf, p.2.1 = true := by
            intro p hp
            rcases List.mem_append.mp hp with hh | hh
            · exact hdirty p (by rw [hsplit]; exact List.mem_append_left _ hh)
            · exact hdirty p (by
                rw [hsplit]
                exact List.mem_append_right _ (List.mem_cons_of_mem _ hh))
          have hperm2 : (((childrenList t).reverse ++ rest) ++
              cacheChildren (pre ++ suf)).Perm (akeys (pre ++ suf)) := by
            rw [← Multiset.coe_eq_coe] at hperm ⊢
            rw [hsplit] at hperm
            rw [cacheChildren_append, akeys_append] at hperm ⊢
            simp only [cacheChildren, akeys, List.map] at hperm
            have key : ({s} : Multiset Digest) +
                (↑((childrenList t).reverse ++ rest) +
                  ↑(cacheChildren pre ++ cacheChildren suf)) =
                ({s} : Multiset Digest) +
                (↑(List.map Prod.fst pre) + ↑(List.map Prod.fst suf)) := by
              calc ({s} : Multiset Digest) +
                  (↑((childrenList t).reverse ++ rest) +
                    ↑(cacheChildren pre ++ cacheChildren suf))
                  = ↑((s :: rest) ++ (cacheChildren pre ++
                      (childrenList t ++ cacheChildren suf))) := by
                    simp only [← Multiset.coe_add, ← Multiset.cons_coe,
                      ← Multiset.singleton_add, Multiset.coe_reverse]
                    abel
                _ = ↑(List.map Prod.fst pre) + ↑(s :: List.map Prod.fst suf) := by
                    exact_mod_cast hperm
                _ = ({s} : Multiset Digest) +
                    (↑(List.map Prod.fst pre) + ↑(List.map Prod.fst suf)) := by
                    simp only [← Multiset.cons_coe, ← Multiset.singleton_add]
                    abel
            have := add_left_cancel key
            simp only [← Multiset.coe_add] at this
            simp only [akeys]
            exact this
          have hreach2 : ∀ e ∈ akeys (pre ++ suf),
              ∃ s2 ∈ (childrenList t).reverse ++ rest, DPath (pre ++ suf) s2 e := by
            intro e he2
            have hecache : e ∈ akeys cache := by
              rw [hsplit]
              rw [akeys_append] at he2 ⊢
              simp [akeys] at he2 ⊢
              tauto
            obtain ⟨s1, hs1, hp⟩ := hreach e hecache
            have hes : e ≠ s := by
              intro hes
              subst hes
              exact (alookup_eq_none_iff _ e).mp hselfgone he2
            rcases dpath_remove_dirty hrem hp with heq | hmid | htail
            · exact absurd heq hes
            · obtain ⟨c, hc, hcp⟩ := hmid
              exact ⟨c, List.mem_append_left _ (List.mem_reverse.mpr hc), hcp⟩
            · rcases List.mem_cons.mp hs1 with hs1s | hs1rest
              · subst hs1s
                exact absurd (dpath_head_none hselfgone htail) hes
              · exact ⟨s1, List.mem_append_right _ hs1rest, htail⟩
          have hlt : (pre ++ suf).length < n := by
            rw [← hlen, hsplit]
            simp
          obtain ⟨vfin, hres, hca, hcb⟩ := ih (pre ++ suf).length hlt (pre ++ suf)
            ((childrenList t).reverse ++ rest) (ainsert validated s t) db rfl
            hnd2 hdirty2 hperm2 hreach2
          rw [flushLoop_cons_dirty s rest cache (pre ++ suf) t validated db hne hrem]
          refine ⟨vfin, hres, ?_, ?_⟩
          · intro e t2 hlke
            by_cases hes : e = s
            · subst hes
              rw [hlk] at hlke
              injection hlke with hlke
              injection hlke with _ ht
              have := hcb e hselfgone
              rw [this, alookup_ainsert_self, ht]
            · have hmono := @aremove_lookup_ne _ cache s e hes
              rw [hrem] at hmono
              exact hca e t2 (by rw [hmono]; exact hlke)
          · intro e hnone
            have hes : e ≠ s := by
              intro hes
              rw [hes, hlk] at hnone
              exact Option.noConfusion hnone
            have hmono := @aremove_lookup_ne _ cache s e hes
            rw [hrem] at hmono
            have := hcb e (by rw [hmono]; exact hnone)
            rw [this, alookup_ainsert_ne validated t hes]

/-! ### Fuel-indexed twin of the flush loop

`flushLoop` is defined by well-founded recursion and does not reduce
definitionally; `flushLoopFuel` is the same algorithm driven by a fuel
counter, equal to `flushLoop` whenever the fuel exceeds the termination
measure, which lets concrete runs be evaluated by `decide`/`rfl`. -/

def flushLoopFuel : Nat → List Digest → Cache → Validated → Db →
    Except Error Validated × Cache
  | 0, _, cache, validated, _ => (.ok validated, cache)
  | _ + 1, [], cache, validated, _ => (.ok validated, cache)
  | fuel + 1, d :: rest, cache, validated, db =>
      if cache.isEmpty = true then
        (.error (.CommitError (.TrieNotFoundDuringCacheValidate d)), cache)
      else
        match aremove cache d with
        | (some (false, _), cache2) => flushLoopFuel fuel rest cache2 validated db
        | (none, _) =>
            match alookup db d with
            | some _ => flushLoopFuel fuel rest cache validated db
            | none =>
                (.error (.CommitError (.TrieNotFoundDuringCacheValidate d)),
                  cache)
        | (some (true, t), cache2) =>
            flushLoopFuel fuel ((childrenList t).reverse ++ rest) cache2
              (ainsert validated d t) db

theorem flushLoop_eq_fuel : ∀ (stack : List Digest) (cache : Cache)
    (validated : Validated) (db : Db) (fuel : Nat),
    stack.length + cacheWeight cache < fuel →
    flushLoop stack cache validated db
      = flushLoopFuel fuel stack cache validated db := by
  intro stack cache validated db
  induction stack, cache, validated, db using flushLoop.induct with
  | case1 cache validated db =>
      intro fuel hfuel
      cases fuel with
      | zero => simp at hfuel
      | succ m => rw [flushLoop_nil]; rfl
  | case2 cache validated db d rest hempty =>
      intro fuel hfuel
      have hnil : cache = [] := by
        cases cache
        · rfl
        · simp [List.isEmpty] at hempty
      subst hnil
      cases fuel with
      | zero => simp at hfuel
      | succ m =>
          rw [flushLoop_cons_emptyCache]
          simp [flushLoopFuel, List.isEmpty]
  | case3 cache validated db d rest hne t cache2 hrem ih =>
      intro fuel hfuel
      cases fuel with
      | zero => simp at hfuel
      | succ m =>
          have hw := cacheWeight_aremove cache d _ _ hrem
          simp at hw
          have hm : rest.length + cacheWeight cache2 < m := by
            simp at hfuel
            omega
          rw [flushLoop_cons_clean d rest cache cache2 t validated db
            (isEmpty_false_of_ne hne) hrem, ih m hm]
          simp only [flushLoopFuel, isEmpty_false_of_ne hne,
            Bool.false_eq_true, if_false, hrem]
  | case4 cache validated db d rest hne snd hrem bs hdb ih =>
      intro fuel hfuel
      cases fuel with
      | zero => simp at hfuel
      | succ m =>
          have hlk : alookup cache d = none := by
            rw [← aremove_fst, hrem]
          have hrem2 : aremove cache d = (none, cache) :=
            aremove_of_alookup_none cache d hlk
          have hm : rest.length + cacheWeight cache < m := by
            simp at hfuel
            omega
          rw [flushLoop_cons_missing_durable d rest cache validated db bs
            (isEmpty_false_of_ne hne) hlk hdb, ih m hm]
          simp only [flushLoopFuel, isEmpty_false_of_ne hne,
            Bool.false_eq_true, if_false, hrem2, hdb]
  | case5 cache validated db d rest hne snd hrem hdb =>
      intro fuel hfuel
      cases fuel with
      | zero => simp at hfuel
      | succ m =>
          have hlk : alookup cache d = none := by
            rw [← aremove_fst, hrem]
          have hrem2 : aremove cache d = (none, cache) :=
            aremove_of_alookup_none cache d hlk
          rw [flushLoop_cons_missing_absent d rest cache validated db
            (isEmpty_false_of_ne hne) hlk hdb]
          simp only [flushLoopFuel, isEmpty_false_of_ne hne,
            Bool.false_eq_true, if_false, hrem2, hdb]
  | case6 cache validated db d rest hne t cache2 hrem ih =>
      intro fuel hfuel
      cases fuel with
      | zero => simp at hfuel
      | succ m =>
          have hw := cacheWeight_aremove cache d _ _ hrem
          simp at hw
          have hm : ((childrenList t).reverse ++ rest).length
              + cacheWeight cache2 < m := by
            simp at hfuel ⊢
            omega
          rw [flushLoop_cons_dirty d rest cache cache2 t validated db
            (isEmpty_false_of_ne hne) hrem, ih m hm]
          simp only [flushLoopFuel, isEmpty_false_of_ne hne,
            Bool.false_eq_true, if_false, hrem]

/-- Evaluation helper: run `write_root_to_db` through the fuel-indexed loop. -/
theorem write_root_to_db_eval (cache : Cache) (db : Db) (root : Digest)
    (fuel : Nat) (hfuel : 1 + cacheWeight cache < fuel) :
    ScratchTrieStore.write_root_to_db cache db root
      = match flushLoopFuel fuel [root] cache [] db with
        | (.error e, cache2) => (.error e, cache2, db)
        | (.ok validated, cache2) => (.ok (), cache2, writeAll db validated) := by
  unfold ScratchTrieStore.write_root_to_db
  rw [flushLoop_eq_fuel [root] cache [] db fuel (by simpa using hfuel)]

/-- C6: `ScratchTrieStore::put` inserts `(true, node)` into the cache keyed by
the digest, unconditionally overwriting any prior entry for that digest,
leaves the durable store untouched, returns success, and a `put` followed by
a `get` for the same digest (before any flush) returns the written node while
the durable store holds no entry for that digest. -/
theorem claim_C6 (cache : Cache) (db : Db) (d : Digest) (t : Trie) :
    (ScratchTrieStore.put cache db d t).1 = .ok () ∧
    (ScratchTrieStore.put cache db d t).2.2 = db ∧
    alookup (ScratchTrieStore.put cache db d t).2.1 d = some (true, t) ∧
    (∀ e, e ≠ d → alookup (ScratchTrieStore.put cache db d t).2.1 e
      = alookup cache e) ∧
    (alookup db d = none →
      ScratchTrieStore.get (ScratchTrieStore.put cache db d t).2.1 db d
        = (.ok (some t), (ScratchTrieStore.put cache db d t).2.1)) := by
  refine ⟨rfl, rfl, alookup_ainsert_self cache d (true, t), ?_, ?_⟩
  · intro e he
    exact alookup_ainsert_ne cache (true, t) he
  · intro _
    simp only [ScratchTrieStore.put, ScratchTrieStore.get,
      alookup_ainsert_self]

/-- C6 witness: a put of a leaf into the empty scratch store against an empty
durable store, checked at digest `7`. -/
theorem claim_C6_witness :
    ((ScratchTrieStore.put [] [] 7 (Trie.leaf [] [])).1 = .ok () ∧
    (ScratchTrieStore.put [] [] 7 (Trie.leaf [] [])).2.2 = [] ∧
    alookup (ScratchTrieStore.put [] [] 7 (Trie.leaf [] [])).2.1 7
      = some (true, Trie.leaf [] []) ∧
    (∀ e, e ≠ 7 → alookup (ScratchTrieStore.put [] [] 7 (Trie.leaf [] [])).2.1 e
      = alookup ([] : Cache) e) ∧
    (alookup ([] : Db) 7 = none →
      ScratchTrieStore.get (ScratchTrieStore.put [] [] 7 (Trie.leaf [] [])).2.1 [] 7
        = (.ok (some (Trie.leaf [] [])),
            (ScratchTrieStore.put [] [] 7 (Trie.leaf [] [])).2.1))) :=
  claim_C6 [] [] 7 (Trie.leaf [] [])

/-- C7: `ScratchTrieStore::get` returns the cached node whenever the digest is
in the cache regardless of its flag; on a cache miss it reads the durable
store: a durable miss returns absence, and a durable hit decodes the bytes,
inserts a clean `(false, node)` entry (no entry being present for the digest),
and returns the node. -/
theorem claim_C7 (cache : Cache) (db : Db) (d : Digest) :
    (∀ b t, alookup cache d = some (b, t) →
      ScratchTrieStore.get cache db d = (.ok (some t), cache)) ∧
    (alookup cache d = none → alookup db d = none →
      ScratchTrieStore.get cache db d = (.ok none, cache)) ∧
    (∀ bs t, alookup cache d = none → alookup db d = some bs →
      deserialize bs = some t →
      ScratchTrieStore.get cache db d
        = (.ok (some t), ainsert cache d (false, t))) := by
  refine ⟨?_, ?_, ?_⟩
  · intro b t h
    simp [ScratchTrieStore.get, h]
  · intro h hdb
    simp [ScratchTrieStore.get, h, hdb]
  · intro bs t h hdb hdec
    simp [ScratchTrieStore.get, h, hdb, hdec]

/-- C7 witness: a dirty cache hit at digest `1`, a miss at digest `2` over an
empty durable store, and a read-through at digest `3` whose durable bytes
decode to a leaf. -/
theorem claim_C7_witness :
    ScratchTrieStore.get [(1, (true, Trie.leaf [] []))] [] 1
      = (.ok (some (Trie.leaf [] [])), [(1, (true, Trie.leaf [] []))]) ∧
    ScratchTrieStore.get [] [] 2 = (.ok none, []) ∧
    ScratchTrieStore.get [] [(3, serialize (Trie.leaf [] []))] 3
      = (.ok (some (Trie.leaf [] [])), [(3, (false, Trie.leaf [] []))]) :=
  ⟨(claim_C7 [(1, (true, Trie.leaf [] []))] [] 1).1 true (Trie.leaf [] []) rfl,
   (claim_C7 [] [] 2).2.1 rfl rfl,
   (claim_C7 [] [(3, serialize (Trie.leaf [] []))] 3).2.2
     (serialize (Trie.leaf [] [])) (Trie.leaf [] []) rfl rfl
     (deserialize_serialize (Trie.leaf [] []))⟩

/-- C10: on a cache miss, if the durable bytes fail to deserialize, `get`
returns the decoding error and the cache is left unchanged — no entry, clean
or dirty, is inserted for the digest. -/
theorem claim_C10 (cache : Cache) (db : Db) (d : Digest) (bs : Bytes)
    (h1 : alookup cache d = none) (h2 : alookup db d = some bs)
    (h3 : deserialize bs = none) :
    ScratchTrieStore.get cache db d = (.error .BytesRepr, cache) := by
  simp [ScratchTrieStore.get, h1, h2, h3]

/-- C10 witness: durable bytes `[99]` at digest `5` do not decode; the get
fails with the decoding error and the cache stays empty. -/
theorem claim_C10_witness :
    deserialize [99] = none ∧
    ScratchTrieStore.get [] [(5, [99])] 5 = (.error .BytesRepr, []) :=
  ⟨rfl, claim_C10 [] [(5, [99])] 5 [99] rfl rfl rfl⟩

/-- C8: with an empty scratch cache, `write_root_to_db` fails immediately with
the validation error for the root itself, whatever the durable store holds;
with a single cache entry for an unrelated digest and the root durably
present, the identical call succeeds and writes nothing. -/
theorem claim_C8 (db db2 : Db) (root u : Digest) (eu : Bool × Trie)
    (hu : u ≠ root) (bs : Bytes) (hroot : alookup db root = some bs) :
    ScratchTrieStore.write_root_to_db [] db2 root
      = (.error (.CommitError (.TrieNotFoundDuringCacheValidate root)), [], db2) ∧
    ScratchTrieStore.write_root_to_db [(u, eu)] db root
      = (.ok (), [(u, eu)], db) := by
  constructor
  · unfold ScratchTrieStore.write_root_to_db
    rw [flushLoop_cons_emptyCache root [] ([] : Validated) db2]
  · have hlk : alookup [(u, eu)] root = none := by
      simp [alookup, hu]
    have h1 := flushLoop_cons_missing_durable root [] [(u, eu)] [] db bs
      (by simp [List.isEmpty]) hlk hroot
    unfold ScratchTrieStore.write_root_to_db
    rw [h1, flushLoop_nil]
    rfl

/-- C8 witness: root digest `0` durably present, cache holding only an entry
for the unrelated digest `1`. -/
theorem claim_C8_witness :
    (1 ≠ 0 ∧ alookup [(0, [0])] 0 = some [0]) ∧
    (ScratchTrieStore.write_root_to_db [] [(0, [0])] 0
      = (.error (.CommitError (.TrieNotFoundDuringCacheValidate 0)), [],
          [(0, [0])]) ∧
    ScratchTrieStore.write_root_to_db [(1, (true, Trie.leaf [] []))] [(0, [0])] 0
      = (.ok (), [(1, (true, Trie.leaf [] []))], [(0, [0])])) :=
  ⟨⟨by decide, rfl⟩,
   claim_C8 [(0, [0])] [(0, [0])] 0 1 (true, Trie.leaf [] []) (by decide)
     [0] rfl⟩

/-- C1: the shared-subtree scenario — two sibling branch nodes (digests 2, 3)
pointing at the same child (digest 1), a root (digest 4) pointing at both
branches, all four put into the scratch store.  The flush does NOT succeed:
the first visit of the shared child consumes its cache entry, so its second
visit (via the other branch) finds the cache empty and fails with the
validation error for the child, and nothing is committed.  (The spec's §8
regression test expects success with the child written once; the code
diverges — the §9 latent bug.) -/
theorem claim_C1 :
    ScratchTrieStore.write_root_to_db
      [(1, (true, Trie.leaf [] [])),
       (2, (true, Trie.node [some (Pointer.nodePointer 1)])),
       (3, (true, Trie.node [none, some (Pointer.nodePointer 1)])),
       (4, (true, Trie.node [some (Pointer.nodePointer 2),
            some (Pointer.nodePointer 3)]))]
      [] 4
    = (.error (.CommitError (.TrieNotFoundDuringCacheValidate 1)), [], []) := by
  rw [write_root_to_db_eval _ _ _ 100 (by decide)]
  rfl

/-- C4: `write_root_to_db` returns the validation error carrying digest `d`
exactly when the traversal reaches a configuration popping `d` with either
the cache empty at that moment, or `d` absent from the cache and absent from
the durable store; no other condition produces this error and neither
condition is ever skipped. -/
theorem claim_C4 (cache : Cache) (db : Db) (root d : Digest) :
    (ScratchTrieStore.write_root_to_db cache db root).1
        = .error (.CommitError (.TrieNotFoundDuringCacheValidate d))
    ↔ ∃ rest cache2 validated2,
        Reach db ([root], cache, []) (d :: rest, cache2, validated2) ∧
        (cache2.isEmpty = true ∨
          (alookup cache2 d = none ∧ alookup db d = none)) := by
  constructor
  · intro h
    rcases hF : flushLoop [root] cache [] db with ⟨r, c2⟩
    cases r with
    | error e =>
        have hw : ScratchTrieStore.write_root_to_db cache db root
            = (.error e, c2, db) := by
          unfold ScratchTrieStore.write_root_to_db
          rw [hF]
        rw [hw] at h
        simp at h
        subst h
        exact flushLoop_err_reach [root] cache [] db d c2 hF
    | ok v =>
        have hw : ScratchTrieStore.write_root_to_db cache db root
            = (.ok (), c2, writeAll db v) := by
          unfold ScratchTrieStore.write_root_to_db
          rw [hF]
        rw [hw] at h
        simp at h
  · rintro ⟨rest, c2, v2, hreach, hcond⟩
    obtain ⟨cfin, hF⟩ :=
      flushLoop_reach_err [root] cache [] db d rest c2 v2 hreach hcond
    unfold ScratchTrieStore.write_root_to_db
    rw [hF]

/-- C4 witness: the iff instantiated at the empty cache, where the flush of
root `0` fails immediately with the condition exhibited at the initial
configuration itself. -/
theorem claim_C4_witness :
    (ScratchTrieStore.write_root_to_db [] [] 0).1
        = .error (.CommitError (.TrieNotFoundDuringCacheValidate 0))
    ↔ ∃ rest cache2 validated2,
        Reach [] ([0], [], []) (0 :: rest, cache2, validated2) ∧
        (cache2.isEmpty = true ∨
          (alookup cache2 0 = none ∧ alookup ([] : Db) 0 = none)) :=
  claim_C4 [] [] 0 0

/-- C5: on successful return of `write_root_to_db`, every digest the traversal
visited has been removed from the scratch cache (dirty and clean alike), and
cache entries for digests the traversal never reached are unchanged. -/
theorem claim_C5 (cache : Cache) (db : Db) (root : Digest)
    (hnd : (akeys cache).Nodup)
    (hok : (ScratchTrieStore.write_root_to_db cache db root).1 = .ok ()) :
    ∀ d, (Visited db ([root], cache, []) d →
        alookup (ScratchTrieStore.write_root_to_db cache db root).2.1 d = none) ∧
      (¬ Visited db ([root], cache, []) d →
        alookup (ScratchTrieStore.write_root_to_db cache db root).2.1 d
          = alookup cache d) := by
  have hc2 : (ScratchTrieStore.write_root_to_db cache db root).2.1
      = (flushLoop [root] cache [] db).2 := by
    unfold ScratchTrieStore.write_root_to_db
    rcases hF : flushLoop [root] cache [] db with ⟨r, c2⟩
    cases r <;> rfl
  intro d
  constructor
  · intro hvis
    rw [hc2]
    exact flushLoop_visited_removed [root] cache [] db hnd d hvis
  · intro hnv
    rw [hc2]
    exact flushLoop_unvisited_unchanged [root] cache [] db d hnv

/-- C5 witness: flushing the one-leaf closure at digest `1` succeeds; the
conclusion is checked at digest `1`. -/
theorem claim_C5_witness :
    (Visited [] ([1], [(1, (true, Trie.leaf [] []))], []) 1 →
      alookup (ScratchTrieStore.write_root_to_db
        [(1, (true, Trie.leaf [] []))] [] 1).2.1 1 = none) ∧
    (¬ Visited [] ([1], [(1, (true, Trie.leaf [] []))], []) 1 →
      alookup (ScratchTrieStore.write_root_to_db
        [(1, (true, Trie.leaf [] []))] [] 1).2.1 1
        = alookup [(1, (true, Trie.leaf [] []))] 1) :=
  claim_C5 [(1, (true, Trie.leaf [] []))] [] 1 (by decide)
    (by rw [write_root_to_db_eval _ _ _ 100 (by decide)]; rfl) 1

/-- C9: when `write_root_to_db` fails with an error, the cache mutations the
traversal made before the failure persist: visited digests stay removed from
the returned cache, unvisited entries are unchanged, and nothing is ever
re-added — the flush is destructive to the cache even on failure, so a repeat
of the same call observes the smaller cache. -/
theorem claim_C9 (cache : Cache) (db : Db) (root : Digest)
    (hnd : (akeys cache).Nodup) (err : Error)
    (herr : (ScratchTrieStore.write_root_to_db cache db root).1 = .error err) :
    ∀ d, (Visited db ([root], cache, []) d →
        alookup (ScratchTrieStore.write_root_to_db cache db root).2.1 d = none) ∧
      (¬ Visited db ([root], cache, []) d →
        alookup (ScratchTrieStore.write_root_to_db cache db root).2.1 d
          = alookup cache d) ∧
      (∀ v, alookup (ScratchTrieStore.write_root_to_db cache db root).2.1 d
          = some v → alookup cache d = some v) := by
  have hc2 : (ScratchTrieStore.write_root_to_db cache db root).2.1
      = (flushLoop [root] cache [] db).2 := by
    unfold ScratchTrieStore.write_root_to_db
    rcases hF : flushLoop [root] cache [] db with ⟨r, c2⟩
    cases r <;> rfl
  intro d
  refine ⟨?_, ?_, ?_⟩
  · intro hvis
    rw [hc2]
    exact flushLoop_visited_removed [root] cache [] db hnd d hvis
  · intro hnv
    rw [hc2]
    exact flushLoop_unvisited_unchanged [root] cache [] db d hnv
  · intro v hv
    by_cases hvis : Visited db ([root], cache, []) d
    · rw [hc2] at hv
      rw [flushLoop_visited_removed [root] cache [] db hnd d hvis] at hv
      exact Option.noConfusion hv
    · rw [hc2] at hv
      rw [flushLoop_unvisited_unchanged [root] cache [] db d hvis] at hv
      exact hv

/-- C9 witness: root `1` points at the missing digest `2`; the flush fails,
the visited entry for `1` is gone from the returned cache, and the unrelated
entry for `3` survives — checked at digest `1`. -/
theorem claim_C9_witness :
    (Visited [] ([1], [(1, (true, Trie.node [some (Pointer.nodePointer 2)])),
        (3, (true, Trie.leaf [] []))], []) 1 →
      alookup (ScratchTrieStore.write_root_to_db
        [(1, (true, Trie.node [some (Pointer.nodePointer 2)])),
         (3, (true, Trie.leaf [] []))] [] 1).2.1 1 = none) ∧
    (¬ Visited [] ([1], [(1, (true, Trie.node [some (Pointer.nodePointer 2)])),
        (3, (true, Trie.leaf [] []))], []) 1 →
      alookup (ScratchTrieStore.write_root_to_db
        [(1, (true, Trie.node [some (Pointer.nodePointer 2)])),
         (3, (true, Trie.leaf [] []))] [] 1).2.1 1
        = alookup [(1, (true, Trie.node [some (Pointer.nodePointer 2)])),
            (3, (true, Trie.leaf [] []))] 1) ∧
    (∀ v, alookup (ScratchTrieStore.write_root_to_db
        [(1, (true, Trie.node [some (Pointer.nodePointer 2)])),
         (3, (true, Trie.leaf [] []))] [] 1).2.1 1 = some v →
      alookup [(1, (true, Trie.node [some (Pointer.nodePointer 2)])),
        (3, (true, Trie.leaf [] []))] 1 = some v) :=
  claim_C9 [(1, (true, Trie.node [some (Pointer.nodePointer 2)])),
      (3, (true, Trie.leaf [] []))] [] 1 (by decide)
    (.CommitError (.TrieNotFoundDuringCacheValidate 2))
    (by rw [write_root_to_db_eval _ _ _ 100 (by decide)]; rfl) 1

/-! ### Claim C3 -/

/-- The node addressed by a digest, as the spec's "transitive closure" sees
it: the cache entry if present (any flag), otherwise the decoded durable
bytes. -/
def nodeAt (cache : Cache) (db : Db) (u : Digest) : Option Trie :=
  match alookup cache u with
  | some (_, t) => some t
  | none =>
      match alookup db u with
      | some bs => deserialize bs
      | none => none

/-- Reachability through the full node graph (cache and durable store alike):
the spec's "transitive closure" of a root. -/
inductive CPath (cache : Cache) (db : Db) : Digest → Digest → Prop where
  | refl (d : Digest) : CPath cache db d d
  | cons {u c e : Digest} {t : Trie} (h : nodeAt cache db u = some t)
      (hc : c ∈ childrenList t) (hp : CPath cache db c e) : CPath cache db u e

/-- C3 counterexample: the claim as stated — a closure member absent from both
stores forces the flush to fail — is false.  With root `10` dirty in the
cache pointing at `11`, `11` present only durably and pointing at the
missing digest `12`, and an unrelated dirty entry `99` keeping the cache
non-empty, `12` is in root's transitive closure yet the flush succeeds: the
traversal accepts `11`'s durable presence and never descends to `12`. -/
theorem claim_C3_counterexample :
    ¬ (∀ (cache : Cache) (db : Db) (root e : Digest),
        CPath cache db root e →
        alookup cache e = none → alookup db e = none →
        ∃ d2, (ScratchTrieStore.write_root_to_db cache db root).1
          = .error (.CommitError (.TrieNotFoundDuringCacheValidate d2))) := by
  intro h
  have hpath : CPath
      [(10, (true, Trie.node [some (Pointer.nodePointer 11)])),
       (99, (true, Trie.leaf [] []))]
      [(11, serialize (Trie.node [some (Pointer.nodePointer 12)]))] 10 12 := by
    refine CPath.cons (c := 11) (t := Trie.node [some (Pointer.nodePointer 11)]) rfl
      (by decide) ?_
    refine CPath.cons (c := 12) (t := Trie.node [some (Pointer.nodePointer 12)]) ?_
      (by decide) (CPath.refl 12)
    have : deserialize (serialize (Trie.node [some (Pointer.nodePointer 12)]))
        = some (Trie.node [some (Pointer.nodePointer 12)]) :=
      deserialize_serialize _
    simp [nodeAt, alookup, this]
  obtain ⟨d2, hd2⟩ := h
    [(10, (true, Trie.node [some (Pointer.nodePointer 11)])),
     (99, (true, Trie.leaf [] []))]
    [(11, serialize (Trie.node [some (Pointer.nodePointer 12)]))]
    10 12 hpath rfl rfl
  have hok : (ScratchTrieStore.write_root_to_db
      [(10, (true, Trie.node [some (Pointer.nodePointer 11)])),
       (99, (true, Trie.leaf [] []))]
      [(11, serialize (Trie.node [some (Pointer.nodePointer 12)]))] 10).1
      = .ok () := by
    rw [write_root_to_db_eval _ _ _ 100 (by decide)]
    rfl
  rw [hok] at hd2
  exact Except.noConfusion hd2

/-- C3 (amended): if some digest `e` is reachable from the root through
*dirty* cache entries (the only paths the traversal descends) while `e` is
absent from the cache and from the durable store, then `write_root_to_db`
fails with the trie-not-found validation error (for some digest) and the
durable store is left unchanged (the transaction is never committed). -/
theorem claim_C3 (cache : Cache) (db : Db) (root e : Digest)
    (hnd : (akeys cache).Nodup)
    (hpath : DPath cache root e)
    (hc : alookup cache e = none) (hdb : alookup db e = none) :
    (∃ d2, (ScratchTrieStore.write_root_to_db cache db root).1
        = .error (.CommitError (.TrieNotFoundDuringCacheValidate d2))) ∧
    (ScratchTrieStore.write_root_to_db cache db root).2.2 = db := by
  rcases hF : flushLoop [root] cache [] db with ⟨r, c2⟩
  cases r with
  | ok v =>
      exfalso
      have := flushLoop_ok_reaches [root] cache [] db hnd v c2 hF root e
        (by simp) hpath
      rcases this with hcon | hcon
      · exact hcon hc
      · exact hcon hdb
  | error err =>
      obtain ⟨d2, hshape⟩ := flushLoop_error_shape [root] cache [] db err c2 hF
      subst hshape
      have hw : ScratchTrieStore.write_root_to_db cache db root
          = (.error (.CommitError (.TrieNotFoundDuringCacheValidate d2)),
              c2, db) := by
        unfold ScratchTrieStore.write_root_to_db
        rw [hF]
      rw [hw]
      exact ⟨⟨d2, rfl⟩, rfl⟩

/-- C3 witness: root `0` is a dirty branch pointing at the missing digest `1`;
the flush fails and the durable store (empty) is unchanged. -/
theorem claim_C3_witness :
    (∃ d2, (ScratchTrieStore.write_root_to_db
        [(0, (true, Trie.node [some (Pointer.nodePointer 1)]))] [] 0).1
        = .error (.CommitError (.TrieNotFoundDuringCacheValidate d2))) ∧
    (ScratchTrieStore.write_root_to_db
        [(0, (true, Trie.node [some (Pointer.nodePointer 1)]))] [] 0).2.2
      = [] :=
  claim_C3 [(0, (true, Trie.node [some (Pointer.nodePointer 1)]))] [] 0 1
    (by decide)
    (DPath.cons (c := 1) (t := Trie.node [some (Pointer.nodePointer 1)]) rfl
      (by decide) (DPath.refl 1))
    rfl rfl

/-! ### Claim C2 -/

theorem dpath_last_edge {cache : Cache} {a e : Digest} (hp : DPath cache a e) :
    e = a ∨ ∃ u t, alookup cache u = some (true, t) ∧ e ∈ childrenList t := by
  induction hp with
  | refl d => left; rfl
  | cons hlook hc hp ih =>
      rcases ih with he | hex
      · right
        exact ⟨_, _, hlook, he ▸ hc⟩
      · right
        exact hex

/-- The scratch cache obtained by `put`ting every node of a closure. -/
def asCache (nodes : List (Digest × Trie)) : Cache :=
  nodes.map (fun p => (p.1, (true, p.2)))

theorem akeys_asCache (nodes : List (Digest × Trie)) :
    akeys (asCache nodes) = nodes.map Prod.fst := by
  simp [akeys, asCache]

/-- C2 (amended): for a root whose full transitive closure was put into the
scratch store, where each closure member is referenced by at most one parent
pointer across the whole closure and the root by none (the closure's
reference structure is a tree), `write_root_to_db` succeeds, drains the
cache, and afterwards every closure member is readable directly from the
durable store, bypassing the scratch cache. -/
theorem claim_C2 (nodes : List (Digest × Trie)) (root : Digest) (db : Db)
    (h1 : (nodes.map Prod.fst).Nodup)
    (h2 : root ∈ nodes.map Prod.fst)
    (h3 : ∀ p ∈ nodes, ∀ c ∈ childrenList p.2, c ∈ nodes.map Prod.fst)
    (h4 : (cacheChildren (asCache nodes)).Nodup)
    (h5 : root ∉ cacheChildren (asCache nodes))
    (h6 : ∀ e ∈ nodes.map Prod.fst, DPath (asCache nodes) root e) :
    ∃ db2, ScratchTrieStore.write_root_to_db (asCache nodes) db root
        = (.ok (), [], db2) ∧
      ∀ p ∈ nodes, LmdbTrieStore.get db2 p.1 = .ok (some p.2) := by
  have hnd : (akeys (asCache nodes)).Nodup := by
    rw [akeys_asCache]; exact h1
  have hdirty : ∀ p ∈ asCache nodes, p.2.1 = true := by
    intro p hp
    simp [asCache] at hp
    obtain ⟨a, b, _, hab⟩ := hp
    rw [← hab]
  have hchild_sub : ∀ e ∈ cacheChildren (asCache nodes), e ∈ nodes.map Prod.fst := by
    intro e he
    obtain ⟨p, hp, hce⟩ := mem_cacheChildren.mp he
    simp [asCache] at hp
    obtain ⟨a, b, hab, hpab⟩ := hp
    rw [← hpab] at hce
    simp at hce
    exact h3 (a, b) hab e hce
  have hperm : (([root] ++ cacheChildren (asCache nodes))).Perm
      (akeys (asCache nodes)) := by
    rw [akeys_asCache]
    rw [List.perm_ext_iff_of_nodup (by simp [h4, h5]) h1]
    intro a
    constructor
    · intro ha
      rcases List.mem_cons.mp ha with ha | ha
      · rw [ha]; exact h2
      · exact hchild_sub a ha
    · intro ha
      rcases dpath_last_edge (h6 a ha) with he | ⟨u, t, hu, hc⟩
      · rw [he]; exact List.mem_cons_self _ _
      · refine List.mem_cons_of_mem _ (mem_cacheChildren.mpr ?_)
        exact ⟨(u, (true, t)), mem_of_alookup_eq_some _ u (true, t) hu, hc⟩
  have hreach : ∀ e ∈ akeys (asCache nodes),
      ∃ s ∈ [root], DPath (asCache nodes) s e := by
    intro e he
    rw [akeys_asCache] at he
    exact ⟨root, List.mem_cons_self _ _, h6 e he⟩
  obtain ⟨vfin, hres, hca, hcb⟩ := flushLoop_tree (asCache nodes).length
    (asCache nodes) [root] [] db rfl hnd hdirty hperm hreach
  have hndv : (akeys vfin).Nodup :=
    flushLoop_validated_nodup [root] (asCache nodes) [] db (by simp [akeys])
      vfin [] hres
  refine ⟨writeAll db vfin, ?_, ?_⟩
  · unfold ScratchTrieStore.write_root_to_db
    rw [hres]
  · intro p hp
    have hmem : (p.1, (true, p.2)) ∈ asCache nodes := by
      simp [asCache]
      exact hp
    have hlk : alookup (asCache nodes) p.1 = some (true, p.2) :=
      alookup_eq_some_of_mem_nodup _ p.1 (true, p.2) hnd hmem
    have hv : alookup vfin p.1 = some p.2 := hca p.1 p.2 hlk
    have hdb2 : alookup (writeAll db vfin) p.1 = some (serialize p.2) :=
      writeAll_lookup_mem vfin db p.1 p.2 hndv hv
    simp [LmdbTrieStore.get, hdb2, deserialize_serialize]

/-- C2 counterexample: without the tree-shapedness condition the claim as
stated is false.  The shared-subtree closure (root `4`, branches `2` and `3`,
shared child `1`) is fully put into the scratch store — its keys are
duplicate-free, it is closed under children, and every member is reachable
from the root — yet `write_root_to_db` does not succeed. -/
theorem claim_C2_counterexample :
    ¬ (∀ (nodes : List (Digest × Trie)) (root : Digest) (db : Db),
        (nodes.map Prod.fst).Nodup →
        root ∈ nodes.map Prod.fst →
        (∀ p ∈ nodes, ∀ c ∈ childrenList p.2, c ∈ nodes.map Prod.fst) →
        (∀ e ∈ nodes.map Prod.fst, DPath (asCache nodes) root e) →
        ∃ db2, ScratchTrieStore.write_root_to_db (asCache nodes) db root
            = (.ok (), [], db2) ∧
          ∀ p ∈ nodes, LmdbTrieStore.get db2 p.1 = .ok (some p.2)) := by
  intro h
  have hlk4 : alookup (asCache
      [(1, Trie.leaf [] []),
       (2, Trie.node [some (Pointer.nodePointer 1)]),
       (3, Trie.node [none, some (Pointer.nodePointer 1)]),
       (4, Trie.node [some (Pointer.nodePointer 2),
            some (Pointer.nodePointer 3)])]) 4
      = some (true, Trie.node [some (Pointer.nodePointer 2),
          some (Pointer.nodePointer 3)]) := rfl
  have hlk3 : alookup (asCache
      [(1, Trie.leaf [] []),
       (2, Trie.node [some (Pointer.nodePointer 1)]),
       (3, Trie.node [none, some (Pointer.nodePointer 1)]),
       (4, Trie.node [some (Pointer.nodePointer 2),
            some (Pointer.nodePointer 3)])]) 3
      = some (true, Trie.node [none, some (Pointer.nodePointer 1)]) := rfl
  obtain ⟨db2, hok, _⟩ := h
    [(1, Trie.leaf [] []),
     (2, Trie.node [some (Pointer.nodePointer 1)]),
     (3, Trie.node [none, some (Pointer.nodePointer 1)]),
     (4, Trie.node [some (Pointer.nodePointer 2),
          some (Pointer.nodePointer 3)])]
    4 [] (by decide) (by decide) (by decide)
    (by
      intro e he
      simp at he
      rcases he with he | he | he | he <;> subst he
      · exact DPath.cons (c := 3) hlk4 (by decide)
          (DPath.cons (c := 1) hlk3 (by decide) (DPath.refl 1))
      · exact DPath.cons (c := 2) hlk4 (by decide) (DPath.refl 2)
      · exact DPath.cons (c := 3) hlk4 (by decide) (DPath.refl 3)
      · exact DPath.refl 4)
  have herr : ScratchTrieStore.write_root_to_db (asCache
      [(1, Trie.leaf [] []),
       (2, Trie.node [some (Pointer.nodePointer 1)]),
       (3, Trie.node [none, some (Pointer.nodePointer 1)]),
       (4, Trie.node [some (Pointer.nodePointer 2),
            some (Pointer.nodePointer 3)])]) [] 4
      = (.error (.CommitError (.TrieNotFoundDuringCacheValidate 1)), [], []) := by
    rw [write_root_to_db_eval _ _ _ 100 (by decide)]
    rfl
  rw [herr] at hok
  exact absurd (congrArg Prod.fst hok) (by simp)

/-- C2 witness: the one-leaf closure at digest `1` flushes successfully and
the leaf is readable directly from the durable store afterwards. -/
theorem claim_C2_witness :
    ∃ db2, ScratchTrieStore.write_root_to_db
        (asCache [(1, Trie.leaf [] [])]) [] 1 = (.ok (), [], db2) ∧
      ∀ p ∈ [(1, Trie.leaf [] [])], LmdbTrieStore.get db2 p.1 = .ok (some p.2) :=
  claim_C2 [(1, Trie.leaf [] [])] 1 [] (by decide) (by decide) (by decide)
    (by decide) (by decide)
    (by
      intro e he
      simp at he
      subst he
      exact DPath.refl 1)
